import Mathlib

/-!
Shallow embedding of the `tango` workflow/saga engine (Go).

Source files modelled: `steps.go` (Response/Step data model and directive
constructors), `machine.go` (Machine, NewMachine, Run, executeStep, Reset,
plugin wiring), `runtime.go` (SequentialStrategy and ConcurrentStrategy,
Execute and Compensate), `plugin.go` (Plugin hook record).

Modelling conventions:

* Go step/hook functions mutate the shared `*MachineContext` in place and
  return a `(*Response, error)` pair.  They are embedded as pure functions
  returning the updated context together with an `Except`/`Option` result.
* The `Result interface\x7b\x7d` payload of a response is embedded as the
  `String` that `%v` renders it to, because the engine itself only ever
  formats it into error messages; errors (`error` values) are likewise
  embedded as their message strings produced by `fmt.Errorf`.
* `NewMachine` stores the one caller-supplied `*MachineContext` pointer into
  both `Machine.Context` and `Machine.InitialContext`, and no engine code
  ever allocates a different context, so the two fields always alias the
  same object.  The model therefore keeps a single `context` cell, and the
  assignments `m.Context = m.InitialContext` (in `Reset` and at the start of
  sequential `Compensate`) are identities on the cell's value.  The repo's
  own `TestMachine_Compensate_State` test depends on this aliasing: it
  expects the counter incremented by the forward run to still be visible to
  the compensations.
* The `Machine` back-reference inside `MachineContext` and the `NewMachine`
  field of `Response` are dropped: the engine core never reads either (the
  back-reference only lets callers reach the directive constructors, and the
  nested-machine field is never auto-run), and keeping them would make the
  types non-positively recursive.
* Concurrency is embedded by serialising the dispatched units at step
  granularity: a schedule (a list of indices, in real runs a permutation)
  fixes the order in which the units complete and publish to the channels.
  Within one unit the source code is straight-line, so every real execution
  in which units do not interleave inside a single step function is some
  schedule; channel receive order equals schedule order.
* The Go `for` loop of `SequentialStrategy.Execute` can be made to run
  forever (e.g. a JUMP cycle), so it is embedded with an explicit fuel
  counter; `RunOut.fuelOut` marks exhaustion and never corresponds to a
  returning Go execution.  An out-of-range negative cursor (reachable only
  via a negative `SkipCount`) indexes `m.Steps[i]` with `i < 0` in Go and
  panics; the model returns `RunOut.panicked` there.
* Every function additionally returns a ghost list of `Event`s recording
  which plugin hooks and step functions were invoked, in order.  The events
  are appended exactly where the source calls the corresponding function and
  carry no other information into the semantics.
* `m.mu` only serialises the bookkeeping writes; in this step-atomic model
  every unit's bookkeeping is already atomic, so the lock has no separate
  representation.  `fmt.Printf` logging guarded by `Config.Log` is an IO
  effect with no semantic content and is not modelled.
-/

namespace Tango

/-- Models `ResponseStatus` and its five constants (steps.go). -/
inductive ResponseStatus where
  | NEXT
  | DONE
  | ERROR
  | SKIP
  | JUMP
deriving DecidableEq, Repr

/-- Models `Response` (steps.go): `Result` is kept as its `%v` rendering, the
inert `NewMachine` field is dropped (see the header comment). -/
structure Response where
  result : String
  status : ResponseStatus
  skipCount : Int
  jumpTarget : String
deriving DecidableEq, Repr

/-- Models `NewResponse` (steps.go). -/
def NewResponse (result : String) (status : ResponseStatus) (skipCount : Int)
    (jumpTarget : String) : Response :=
  { result := result, status := status, skipCount := skipCount, jumpTarget := jumpTarget }

/-- Models `Next` (steps.go). -/
def next (result : String) : Response := NewResponse result .NEXT 0 ""

/-- Models `Done` (steps.go). -/
def done (result : String) : Response := NewResponse result .DONE 0 ""

/-- Models `Error` (steps.go). -/
def error (result : String) : Response := NewResponse result .ERROR 0 ""

/-- Models `Skip` (steps.go): the count is stored verbatim, with no
validation. -/
def skip (result : String) (count : Int) : Response := NewResponse result .SKIP count ""

/-- Models `Jump` (steps.go). -/
def jump (result : String) (target : String) : Response := NewResponse result .JUMP 0 target

/-- Models `MachineContext[Services, State]` (machine.go); the `Machine`
back-reference is dropped (see the header comment). -/
structure MachineContext (σ τ : Type) where
  services : σ
  previousResult : Option Response
  state : τ

/-- Models `Step[Services, State]` (steps.go).  Each Go function field is a
nilable function pointer, embedded as an `Option`; a function both mutates
the context and returns its result. -/
structure Step (σ τ : Type) where
  name : String
  execute : Option (MachineContext σ τ → MachineContext σ τ × Except String Response)
  beforeExecute : Option (MachineContext σ τ → MachineContext σ τ × Option String)
  afterExecute : Option (MachineContext σ τ → MachineContext σ τ × Option String)
  compensate : Option (MachineContext σ τ → MachineContext σ τ × Except String Response)
  beforeCompensate : Option (MachineContext σ τ → MachineContext σ τ × Option String)
  afterCompensate : Option (MachineContext σ τ → MachineContext σ τ × Option String)

/-- Models `NewStep` (steps.go): a field-by-field copy of the record. -/
def NewStep {σ τ : Type} (step : Step σ τ) : Step σ τ :=
  { name := step.name
    execute := step.execute
    beforeExecute := step.beforeExecute
    afterExecute := step.afterExecute
    compensate := step.compensate
    beforeCompensate := step.beforeCompensate
    afterCompensate := step.afterCompensate }

/-- Models the two implementations of `ExecutionStrategy` (runtime.go):
`SequentialStrategy` and `ConcurrentStrategy` with its `Concurrency` bound. -/
inductive Strategy where
  | sequential
  | concurrent (concurrency : Int)
deriving DecidableEq, Repr

/-- Models `Plugin[Services, State]` (plugin.go).  In Go,
`ModifyExecutionStrategy` receives the machine and returns a replacement
strategy or nil; the model keeps the replacement itself (covering the
constant hooks, which is all the claims exercise). -/
structure Plugin (σ τ : Type) where
  init : MachineContext σ τ → MachineContext σ τ × Option String
  execute : MachineContext σ τ → MachineContext σ τ × Option String
  cleanup : MachineContext σ τ → MachineContext σ τ × Option String
  modifyExecutionStrategy : Option Strategy

/-- Models `MachineConfig` (machine.go). -/
structure MachineConfig (σ τ : Type) where
  log : Bool
  logLevel : String
  plugins : List (Plugin σ τ)

/-- Models `Machine[Services, State]` (machine.go).  `context` is the single
context cell that both `Context` and `InitialContext` point to (see the
header comment); `mu` has no separate representation in the step-atomic
model. -/
structure Machine (σ τ : Type) where
  name : String
  context : MachineContext σ τ
  steps : List (Step σ τ)
  executedSteps : List (Step σ τ)
  config : MachineConfig σ τ
  strategy : Strategy

/-- Models `NewMachine` (machine.go): both `Context` and `InitialContext` are
set to the same caller-supplied pointer, i.e. to the one `context` cell;
`ExecutedSteps` starts as nil. -/
def NewMachine {σ τ : Type} (name : String) (steps : List (Step σ τ))
    (initialContext : MachineContext σ τ) (config : MachineConfig σ τ)
    (strategy : Strategy) : Machine σ τ :=
  { name := name
    context := initialContext
    steps := steps
    executedSteps := []
    config := config
    strategy := strategy }

/-- Models `Machine.AddStep` (machine.go). -/
def addStep {σ τ : Type} (m : Machine σ τ) (step : Step σ τ) : Machine σ τ :=
  { m with steps := m.steps ++ [step] }

/-- Models `Machine.Reset` (machine.go): `Steps` and `ExecutedSteps` are
cleared; `m.Context = m.InitialContext` restores the (already identical)
pointer, an identity on the cell's value. -/
def reset {σ τ : Type} (m : Machine σ τ) : Machine σ τ :=
  { m with steps := [], executedSteps := [] }

/-- Ghost trace entries: one event per plugin-hook or step-function
invocation, emitted exactly where the source calls the function. -/
inductive Event where
  | pluginInit (idx : Nat)
  | pluginBeforeStep (idx : Nat)
  | pluginCleanup (idx : Nat)
  | beforeExec (step : String)
  | execStep (step : String)
  | afterExec (step : String)
  | beforeComp (step : String)
  | compStep (step : String)
  | afterComp (step : String)
deriving DecidableEq, Repr

/-- Outcome of a strategy `Execute` or of `Machine.Run`: a normal
`(*Response, error)` return, a Go panic (negative cursor), or fuel
exhaustion of the model (no corresponding returning Go execution). -/
inductive RunOut where
  | ret (resp : Option Response) (err : Option String)
  | panicked
  | fuelOut
deriving DecidableEq, Repr

/-- Names carried by the `Event.compStep` entries of a trace, in order (which
step `Compensate` functions were invoked). -/
def compNames (tr : List Event) : List String :=
  tr.filterMap fun e => match e with | .compStep n => some n | _ => none

/-- Plugin indices carried by the `Event.pluginCleanup` entries of a trace,
in order. -/
def cleanupIdxs (tr : List Event) : List Nat :=
  tr.filterMap fun e => match e with | .pluginCleanup i => some i | _ => none

/-- Prepends the instrumentation of the current iteration to the trace of the
rest of a run. -/
def prependTr {α β : Type} (t : List Event) : α × β × List Event → α × β × List Event :=
  fun r => (r.1, r.2.1, t ++ r.2.2)

variable {σ τ : Type}

/-- Models the plugin loop at the top of `Machine.executeStep` (machine.go):
each plugin's per-step `Execute` hook runs in order; a hook error aborts with
the wrapped "plugin before step error". -/
def pluginBeforeHooks (ctx : MachineContext σ τ) :
    List (Plugin σ τ) → Nat → MachineContext σ τ × Option String × List Event
  | [], _ => (ctx, none, [])
  | p :: rest, idx =>
    let r := p.execute ctx
    match r.2 with
    | some e => (r.1, some ("plugin before step error: " ++ e), [.pluginBeforeStep idx])
    | none =>
      let rec' := pluginBeforeHooks r.1 rest (idx + 1)
      (rec'.1, rec'.2.1, .pluginBeforeStep idx :: rec'.2.2)

/-- Models the tail of `Machine.executeStep` (machine.go) from the nil check
on `step.Execute` onwards: missing `Execute` is the fatal configuration
error, a function-level error propagates as-is, and a surviving response then
passes through `AfterExecute` (whose error discards the response). -/
def executeStepCore (ctx : MachineContext σ τ) (step : Step σ τ) (tr : List Event) :
    MachineContext σ τ × Except String Response × List Event :=
  match step.execute with
  | none => (ctx, .error ("step " ++ step.name ++ " has no execute function"), tr)
  | some f =>
    let r := f ctx
    match r.2 with
    | .error e => (r.1, .error e, tr ++ [.execStep step.name])
    | .ok resp =>
      match step.afterExecute with
      | none => (r.1, .ok resp, tr ++ [.execStep step.name])
      | some g =>
        let a := g r.1
        match a.2 with
        | some e => (a.1, .error e, tr ++ [.execStep step.name, .afterExec step.name])
        | none => (a.1, .ok resp, tr ++ [.execStep step.name, .afterExec step.name])

/-- Models `Machine.executeStep` (machine.go): plugin per-step hooks, then
`BeforeExecute` (whose error means `Execute` never runs), then the core. -/
def executeStep (m : Machine σ τ) (step : Step σ τ) :
    MachineContext σ τ × Except String Response × List Event :=
  let ph := pluginBeforeHooks m.context m.config.plugins 0
  match ph.2.1 with
  | some e => (ph.1, .error e, ph.2.2)
  | none =>
    match step.beforeExecute with
    | none => executeStepCore ph.1 step ph.2.2
    | some f =>
      let b := f ph.1
      match b.2 with
      | some e => (b.1, .error e, ph.2.2 ++ [.beforeExec step.name])
      | none => executeStepCore b.1 step (ph.2.2 ++ [.beforeExec step.name])

/-- Models the shared per-step body of the two `Compensate` loops
(runtime.go): `BeforeCompensate` (abort on error), the nil check on
`Compensate` ("no compensate function"), `Compensate` (abort on error,
response discarded), `AfterCompensate` (abort on error). -/
def compensateOneStep (ctx : MachineContext σ τ) (step : Step σ τ) :
    MachineContext σ τ × Option String × List Event :=
  let b : MachineContext σ τ × Option String × List Event :=
    match step.beforeCompensate with
    | none => (ctx, none, [])
    | some f =>
      let r := f ctx
      (r.1, r.2, [.beforeComp step.name])
  match b.2.1 with
  | some e => (b.1, some e, b.2.2)
  | none =>
    match step.compensate with
    | none => (b.1, some ("step " ++ step.name ++ " has no compensate function"), b.2.2)
    | some g =>
      let c := g b.1
      match c.2 with
      | .error e => (c.1, some e, b.2.2 ++ [.compStep step.name])
      | .ok _ =>
        match step.afterCompensate with
        | none => (c.1, none, b.2.2 ++ [.compStep step.name])
        | some h =>
          let a := h c.1
          (a.1, a.2, b.2.2 ++ [.compStep step.name, .afterComp step.name])

/-- Models the loop of `SequentialStrategy.Compensate` (runtime.go) over the
already-reversed executed-step list: the first per-step failure aborts the
traversal. -/
def seqCompensateList (ctx : MachineContext σ τ) :
    List (Step σ τ) → MachineContext σ τ × Option String × List Event
  | [] => (ctx, none, [])
  | step :: rest =>
    let r := compensateOneStep ctx step
    match r.2.1 with
    | some e => (r.1, some e, r.2.2)
    | none =>
      let k := seqCompensateList r.1 rest
      (k.1, k.2.1, r.2.2 ++ k.2.2)

/-- Models `SequentialStrategy.Compensate` (runtime.go): the assignment
`m.Context = m.InitialContext` restores the (already identical) pointer —
an identity on the context cell — and the loop walks `ExecutedSteps` from
`len-1` down to `0`, i.e. the reversed list.  The returned response is
always nil in the source. -/
def seqCompensate (m : Machine σ τ) :
    (Option Response × Option String) × Machine σ τ × List Event :=
  let r := seqCompensateList m.context m.executedSteps.reverse
  ((none, r.2.1), { m with context := r.1 }, r.2.2)

/-- Models the dispatched units of `ConcurrentStrategy.Compensate`
(runtime.go), serialised in schedule order over the reversed executed-step
list (the dispatch loop runs `i` from `len-1` down to `0`).  Every unit is
dispatched regardless of other units' failures; each unit's first failure is
pushed onto the error channel, so the collected errors appear in completion
(schedule) order. -/
def concCompensateUnits (ctx : MachineContext σ τ) (rev : List (Step σ τ)) :
    List Nat → MachineContext σ τ × List String × List Event
  | [] => (ctx, [], [])
  | j :: rest =>
    match rev[j]? with
    | none => concCompensateUnits ctx rev rest
    | some step =>
      let r := compensateOneStep ctx step
      let k := concCompensateUnits r.1 rev rest
      match r.2.1 with
      | some e => (k.1, e :: k.2.1, r.2.2 ++ k.2.2)
      | none => (k.1, k.2.1, r.2.2 ++ k.2.2)

/-- Models `ConcurrentStrategy.Compensate` (runtime.go) for a bound `> 1`
(the `≤ 1` delegation lives in `strategyCompensate`): after all units are
drained, `case err := <-errorChan` returns the first recorded error, else
nil; the response is always nil.  Note the source has no
`m.Context = m.InitialContext` reset here (an identity anyway, see the
header comment). -/
def concCompensate (cs : List Nat) (m : Machine σ τ) :
    (Option Response × Option String) × Machine σ τ × List Event :=
  let r := concCompensateUnits m.context m.executedSteps.reverse cs
  match r.2.1 with
  | e :: _ => ((none, some e), { m with context := r.1 }, r.2.2)
  | [] => ((none, none), { m with context := r.1 }, r.2.2)

/-- Models dispatch through the `ExecutionStrategy` interface for
`Compensate` (runtime.go): `ConcurrentStrategy.Compensate` with
`Concurrency <= 1` delegates to a fresh `SequentialStrategy`. -/
def strategyCompensate (cs : List Nat) (strat : Strategy) (m : Machine σ τ) :
    (Option Response × Option String) × Machine σ τ × List Event :=
  match strat with
  | .sequential => seqCompensate m
  | .concurrent n => if n ≤ 1 then seqCompensate m else concCompensate cs m

/-- Models `Machine.Compensate` (machine.go): delegates to the active
strategy's `Compensate`. -/
def machineCompensate (cs : List Nat) (m : Machine σ τ) :
    (Option Response × Option String) × Machine σ τ × List Event :=
  strategyCompensate cs m.strategy m

/-- Models the `for` loop of `SequentialStrategy.Execute` (runtime.go) with
cursor `i` (a Go `int`, so an `Int` here) and explicit fuel.  After a
successful `executeStep`, the step is appended to `ExecutedSteps` and
`PreviousResult` is set, then the directive switch runs: NEXT continues at
`i+1`; DONE returns the response; ERROR runs `m.Compensate()` and returns
its response paired with the "step ... failed" error, unless compensation
itself failed ("compensate error"); SKIP continues at `i + SkipCount + 1`;
JUMP linearly scans `Steps` for the first matching `Name` and continues
there, or fails with "jump target ... not found".  A negative cursor passes
the `i < len` test and panics on the index. -/
def seqExecuteLoop (cs : List Nat) :
    Nat → Machine σ τ → Int → RunOut × Machine σ τ × List Event
  | 0, m, _ => (.fuelOut, m, [])
  | fuel + 1, m, i =>
    if i < (m.steps.length : Int) then
      if 0 ≤ i then
        match m.steps[i.toNat]? with
        | none => (.panicked, m, [])
        | some step =>
          let ex := executeStep m step
          match ex.2.1 with
          | .error e => (.ret none (some e), { m with context := ex.1 }, ex.2.2)
          | .ok resp =>
            let m' : Machine σ τ :=
              { m with context := { ex.1 with previousResult := some resp }
                       executedSteps := m.executedSteps ++ [step] }
            match resp.status with
            | .NEXT => prependTr ex.2.2 (seqExecuteLoop cs fuel m' (i + 1))
            | .DONE => (.ret (some resp) none, m', ex.2.2)
            | .ERROR =>
              let c := machineCompensate cs m'
              match c.1.2 with
              | some e => (.ret none (some ("compensate error: " ++ e)), c.2.1, ex.2.2 ++ c.2.2)
              | none =>
                (.ret c.1.1 (some ("step " ++ step.name ++ " failed: " ++ resp.result)),
                  c.2.1, ex.2.2 ++ c.2.2)
            | .SKIP => prependTr ex.2.2 (seqExecuteLoop cs fuel m' (i + resp.skipCount + 1))
            | .JUMP =>
              match m.steps.findIdx? (fun s => s.name == resp.jumpTarget) with
              | some t => prependTr ex.2.2 (seqExecuteLoop cs fuel m' (t : Int))
              | none =>
                (.ret none
                  (some ("jump target \x27" ++ resp.jumpTarget ++ "\x27 not found at " ++
                    step.name)), m', ex.2.2)
      else (.panicked, m, [])
    else (.ret none none, m, [])

/-- Models `SequentialStrategy.Execute` (runtime.go): the loop from cursor 0;
falling off the end returns `(nil, nil)`. -/
def seqExecute (fuel : Nat) (cs : List Nat) (m : Machine σ τ) :
    RunOut × Machine σ τ × List Event :=
  seqExecuteLoop cs fuel m 0

/-- Models the dispatched units of `ConcurrentStrategy.Execute` (runtime.go),
serialised in schedule order: a unit whose `executeStep` fails pushes the
error (and is not appended to `ExecutedSteps`); a successful unit pushes its
response and then appends itself and sets `PreviousResult` under the lock.
Channel contents accumulate in completion (schedule) order. -/
def concExecuteUnits (m : Machine σ τ) :
    List Nat → Machine σ τ × List Response × List String × List Event
  | [] => (m, [], [], [])
  | j :: rest =>
    match m.steps[j]? with
    | none => concExecuteUnits m rest
    | some step =>
      let ex := executeStep m step
      match ex.2.1 with
      | .error e =>
        let k := concExecuteUnits { m with context := ex.1 } rest
        (k.1, k.2.1, e :: k.2.2.1, ex.2.2 ++ k.2.2.2)
      | .ok resp =>
        let m' : Machine σ τ :=
          { m with context := { ex.1 with previousResult := some resp }
                   executedSteps := m.executedSteps ++ [step] }
        let k := concExecuteUnits m' rest
        (k.1, resp :: k.2.1, k.2.2.1, ex.2.2 ++ k.2.2.2)

/-- Models `ConcurrentStrategy.Execute` (runtime.go) for a bound `> 1` (the
`≤ 1` delegation lives in `strategyExecute`): every step is dispatched; after
the admission bound is drained, `select` checks the error channel — the
received error value is discarded by `case <-errorChan:`, `m.Compensate()`
runs, a compensation failure returns the wrapped "compensate error", and
otherwise the source's `return cResponse, err` returns the compensation
response together with the `err` just checked to be nil, so the recorded
error is lost.  With no recorded error, the responses are scanned for the
first with status DONE. -/
def concExecute (cs : List Nat) (es : List Nat) (m : Machine σ τ) :
    RunOut × Machine σ τ × List Event :=
  let u := concExecuteUnits m es
  match u.2.2.1 with
  | _ :: _ =>
    let c := machineCompensate cs u.1
    match c.1.2 with
    | some e => (.ret none (some ("compensate error: " ++ e)), c.2.1, u.2.2.2 ++ c.2.2)
    | none => (.ret c.1.1 none, c.2.1, u.2.2.2 ++ c.2.2)
  | [] =>
    match u.2.1.find? (fun r => r.status == .DONE) with
    | some r => (.ret (some r) none, u.1, u.2.2.2)
    | none => (.ret none none, u.1, u.2.2.2)

/-- Models dispatch through the `ExecutionStrategy` interface for `Execute`
(runtime.go): `ConcurrentStrategy.Execute` with `Concurrency <= 1` delegates
to a fresh `SequentialStrategy`. -/
def strategyExecute (fuel : Nat) (es cs : List Nat) (strat : Strategy) (m : Machine σ τ) :
    RunOut × Machine σ τ × List Event :=
  match strat with
  | .sequential => seqExecute fuel cs m
  | .concurrent n => if n ≤ 1 then seqExecute fuel cs m else concExecute cs es m

/-- Models the plugin loop at the top of `Machine.Run` (machine.go): each
plugin's `Init` runs (error → wrapped "plugin setup error"), then a non-nil
strategy replacement is installed. -/
def pluginInitPhase (m : Machine σ τ) :
    List (Plugin σ τ) → Nat → Machine σ τ × Option String × List Event
  | [], _ => (m, none, [])
  | p :: rest, idx =>
    let r := p.init m.context
    let m1 : Machine σ τ := { m with context := r.1 }
    match r.2 with
    | some e => (m1, some ("plugin setup error: " ++ e), [.pluginInit idx])
    | none =>
      let m2 : Machine σ τ :=
        match p.modifyExecutionStrategy with
        | some s => { m1 with strategy := s }
        | none => m1
      let k := pluginInitPhase m2 rest (idx + 1)
      (k.1, k.2.1, .pluginInit idx :: k.2.2)

/-- Models the plugin loop at the bottom of `Machine.Run` (machine.go): each
plugin's `Cleanup` runs in order; an error aborts with the wrapped "plugin
cleanup error". -/
def pluginCleanupPhase (ctx : MachineContext σ τ) :
    List (Plugin σ τ) → Nat → MachineContext σ τ × Option String × List Event
  | [], _ => (ctx, none, [])
  | p :: rest, idx =>
    let r := p.cleanup ctx
    match r.2 with
    | some e => (r.1, some ("plugin cleanup error: " ++ e), [.pluginCleanup idx])
    | none =>
      let k := pluginCleanupPhase r.1 rest (idx + 1)
      (k.1, k.2.1, .pluginCleanup idx :: k.2.2)

/-- Models `Machine.Run` (machine.go): the empty-steps guard, the plugin
`Init` phase (which may swap the strategy), the strategy's `Execute`, the
early `return nil, err` on an execution error — skipping the cleanup loop —
and otherwise the plugin `Cleanup` phase before returning the response. -/
def runMachine (fuel : Nat) (es cs : List Nat) (m : Machine σ τ) :
    RunOut × Machine σ τ × List Event :=
  if m.steps.length = 0 then (.ret none (some "no steps to execute"), m, [])
  else
    let ip := pluginInitPhase m m.config.plugins 0
    match ip.2.1 with
    | some e => (.ret none (some e), ip.1, ip.2.2)
    | none =>
      let xr := strategyExecute fuel es cs ip.1.strategy ip.1
      match xr.1 with
      | .ret resp err =>
        match err with
        | some e => (.ret none (some e), xr.2.1, ip.2.2 ++ xr.2.2)
        | none =>
          let cp := pluginCleanupPhase xr.2.1.context xr.2.1.config.plugins 0
          let m3 : Machine σ τ := { xr.2.1 with context := cp.1 }
          match cp.2.1 with
          | some e => (.ret none (some e), m3, ip.2.2 ++ xr.2.2 ++ cp.2.2)
          | none => (.ret resp none, m3, ip.2.2 ++ xr.2.2 ++ cp.2.2)
      | o => (o, xr.2.1, ip.2.2 ++ xr.2.2)

/-! ### Structural helper lemmas -/

@[simp] theorem prependTr_out {α β : Type} (t : List Event) (x : α × β × List Event) :
    (prependTr t x).1 = x.1 := rfl

@[simp] theorem prependTr_mid {α β : Type} (t : List Event) (x : α × β × List Event) :
    (prependTr t x).2.1 = x.2.1 := rfl

@[simp] theorem prependTr_trace {α β : Type} (t : List Event) (x : α × β × List Event) :
    (prependTr t x).2.2 = t ++ x.2.2 := rfl

theorem seqCompensate_frame (m : Machine σ τ) :
    ((seqCompensate m).2.1).steps = m.steps ∧
    ((seqCompensate m).2.1).config = m.config ∧
    ((seqCompensate m).2.1).strategy = m.strategy ∧
    ((seqCompensate m).2.1).executedSteps = m.executedSteps := by
  simp [seqCompensate]

theorem concCompensate_frame (cs : List Nat) (m : Machine σ τ) :
    ((concCompensate cs m).2.1).steps = m.steps ∧
    ((concCompensate cs m).2.1).config = m.config ∧
    ((concCompensate cs m).2.1).strategy = m.strategy ∧
    ((concCompensate cs m).2.1).executedSteps = m.executedSteps := by
  simp only [concCompensate]
  split <;> simp

theorem machineCompensate_cases (cs : List Nat) (m : Machine σ τ) :
    machineCompensate cs m = seqCompensate m ∨
    machineCompensate cs m = concCompensate cs m := by
  unfold machineCompensate strategyCompensate
  rcases m.strategy with _ | n
  · exact Or.inl rfl
  · by_cases h : n ≤ 1
    · exact Or.inl (by simp [h])
    · exact Or.inr (by simp [h])

theorem machineCompensate_frame (cs : List Nat) (m : Machine σ τ) :
    ((machineCompensate cs m).2.1).steps = m.steps ∧
    ((machineCompensate cs m).2.1).config = m.config ∧
    ((machineCompensate cs m).2.1).strategy = m.strategy ∧
    ((machineCompensate cs m).2.1).executedSteps = m.executedSteps := by
  rcases machineCompensate_cases cs m with h | h <;> rw [h]
  · exact seqCompensate_frame m
  · exact concCompensate_frame cs m

theorem seqExecuteLoop_frame (cs : List Nat) (fuel : Nat) (m : Machine σ τ) (i : Int) :
    ((seqExecuteLoop cs fuel m i).2.1).steps = m.steps ∧
    ((seqExecuteLoop cs fuel m i).2.1).config = m.config ∧
    ((seqExecuteLoop cs fuel m i).2.1).strategy = m.strategy ∧
    ∃ t, ((seqExecuteLoop cs fuel m i).2.1).executedSteps = m.executedSteps ++ t := by
  induction fuel generalizing m i with
  | zero => simp [seqExecuteLoop]
  | succ f ih =>
    simp only [seqExecuteLoop]
    split
    · split
      · split
        · simp
        · rename_i step _
          split
          · simp
          · rename_i resp _
            split
            · rcases ih _ (i + 1) with ⟨h1, h2, h3, t, h4⟩
              refine ⟨by simpa using h1, by simpa using h2, by simpa using h3, step :: t, ?_⟩
              simpa using h4
            · exact ⟨rfl, rfl, rfl, [step], rfl⟩
            · rename_i hcomp
              rcases machineCompensate_frame cs
                  { m with context := { (executeStep m step).1 with previousResult := some resp }
                           executedSteps := m.executedSteps ++ [step] } with ⟨h1, h2, h3, h4⟩
              split
              · exact ⟨h1, h2, h3, [step], h4⟩
              · exact ⟨h1, h2, h3, [step], h4⟩
            · rcases ih _ (i + resp.skipCount + 1) with ⟨h1, h2, h3, t, h4⟩
              refine ⟨by simpa using h1, by simpa using h2, by simpa using h3, step :: t, ?_⟩
              simpa using h4
            · split
              · rename_i tgt _
                rcases ih _ ((tgt : Int)) with ⟨h1, h2, h3, t, h4⟩
                refine ⟨by simpa using h1, by simpa using h2, by simpa using h3, step :: t, ?_⟩
                simpa using h4
              · exact ⟨rfl, rfl, rfl, [step], rfl⟩
      · simp
    · simp

theorem concExecuteUnits_frame (m : Machine σ τ) (sched : List Nat) :
    ((concExecuteUnits m sched).1).steps = m.steps ∧
    ((concExecuteUnits m sched).1).config = m.config ∧
    ((concExecuteUnits m sched).1).strategy = m.strategy ∧
    ∃ t, ((concExecuteUnits m sched).1).executedSteps = m.executedSteps ++ t := by
  induction sched generalizing m with
  | nil => simp [concExecuteUnits]
  | cons j rest ih =>
    simp only [concExecuteUnits]
    split
    · exact ih m
    · rename_i step _
      split
      · rcases ih { m with context := (executeStep m step).1 } with ⟨h1, h2, h3, t, h4⟩
        exact ⟨h1, h2, h3, t, h4⟩
      · rename_i resp _
        rcases ih { m with context := { (executeStep m step).1 with previousResult := some resp }
                           executedSteps := m.executedSteps ++ [step] } with ⟨h1, h2, h3, t, h4⟩
        refine ⟨by simpa using h1, by simpa using h2, by simpa using h3, step :: t, ?_⟩
        simpa using h4

theorem concExecute_frame (cs es : List Nat) (m : Machine σ τ) :
    ((concExecute cs es m).2.1).steps = m.steps ∧
    ((concExecute cs es m).2.1).config = m.config ∧
    ((concExecute cs es m).2.1).strategy = m.strategy ∧
    ∃ t, ((concExecute cs es m).2.1).executedSteps = m.executedSteps ++ t := by
  simp only [concExecute]
  rcases concExecuteUnits_frame m es with ⟨h1, h2, h3, t, h4⟩
  split
  · rcases machineCompensate_frame cs (concExecuteUnits m es).1 with ⟨g1, g2, g3, g4⟩
    split
    · exact ⟨g1.trans h1, g2.trans h2, g3.trans h3, t, g4.trans h4⟩
    · exact ⟨g1.trans h1, g2.trans h2, g3.trans h3, t, g4.trans h4⟩
  · split
    · exact ⟨h1, h2, h3, t, h4⟩
    · exact ⟨h1, h2, h3, t, h4⟩

theorem strategyExecute_frame (fuel : Nat) (es cs : List Nat) (strat : Strategy)
    (m : Machine σ τ) :
    ((strategyExecute fuel es cs strat m).2.1).steps = m.steps ∧
    ((strategyExecute fuel es cs strat m).2.1).config = m.config ∧
    ((strategyExecute fuel es cs strat m).2.1).strategy = m.strategy ∧
    ∃ t, ((strategyExecute fuel es cs strat m).2.1).executedSteps = m.executedSteps ++ t := by
  unfold strategyExecute
  cases strat with
  | sequential => exact seqExecuteLoop_frame cs fuel m 0
  | concurrent n =>
    by_cases h : n ≤ 1
    · simpa [h] using seqExecuteLoop_frame cs fuel m 0
    · simpa [h] using concExecute_frame cs es m

theorem pluginInitPhase_frame (m : Machine σ τ) (ps : List (Plugin σ τ)) (idx : Nat) :
    ((pluginInitPhase m ps idx).1).steps = m.steps ∧
    ((pluginInitPhase m ps idx).1).config = m.config ∧
    ((pluginInitPhase m ps idx).1).executedSteps = m.executedSteps := by
  induction ps generalizing m idx with
  | nil => simp [pluginInitPhase]
  | cons p rest ih =>
    simp only [pluginInitPhase]
    split
    · simp
    · split
      · rename_i s _
        exact ih { { m with context := (p.init m.context).1 } with strategy := s } (idx + 1)
      · exact ih { m with context := (p.init m.context).1 } (idx + 1)

theorem runMachine_executedSteps (fuel : Nat) (es cs : List Nat) (m : Machine σ τ) :
    ∃ t, ((runMachine fuel es cs m).2.1).executedSteps = m.executedSteps ++ t := by
  simp only [runMachine]
  split
  · exact ⟨[], by simp⟩
  · rcases pluginInitPhase_frame m m.config.plugins 0 with ⟨-, -, hinit⟩
    rcases strategyExecute_frame fuel es cs (pluginInitPhase m m.config.plugins 0).1.strategy
      (pluginInitPhase m m.config.plugins 0).1 with ⟨-, -, -, t, hexec⟩
    split
    · exact ⟨[], by simpa using hinit⟩
    · split
      · split
        · exact ⟨t, by simpa [hinit] using hexec⟩
        · split
          · exact ⟨t, by simpa [hinit] using hexec⟩
          · exact ⟨t, by simpa [hinit] using hexec⟩
      · exact ⟨t, by simpa [hinit] using hexec⟩

/-! ### Concrete fixtures used by counterexamples and witnesses -/

/-- A context over trivial services and an integer state. -/
def ctxU : MachineContext Unit Int :=
  { services := (), previousResult := none, state := 0 }

/-- A configuration with no plugins. -/
def cfgU : MachineConfig Unit Int :=
  { log := false, logLevel := "", plugins := [] }

/-- A step that returns NEXT and has a succeeding compensation. -/
def okStep (n : String) : Step Unit Int :=
  { name := n
    execute := some fun c => (c, .ok (next "nx"))
    beforeExecute := none
    afterExecute := none
    compensate := some fun c => (c, .ok (done "cp"))
    beforeCompensate := none
    afterCompensate := none }

/-- A step that returns DONE. -/
def doneStep (n : String) : Step Unit Int :=
  { okStep n with execute := some fun c => (c, .ok (done "dn")) }

/-- A step whose `Execute` function returns a function-level error. -/
def errFnStep (n : String) : Step Unit Int :=
  { okStep n with execute := some fun c => (c, .error "boom") }

/-- Two-step machine under `ConcurrentStrategy` with bound 2 whose second unit
records a function-level error while the first completes and is compensable. -/
def machineC1 : Machine Unit Int :=
  NewMachine "M" [okStep "A", errFnStep "B"] ctxU cfgU (.concurrent 2)

/-- A context whose state is a pair: the workflow counter and a slot where the
compensation records the counter value it observed. -/
def c2ctx (n : Int) : MachineContext Unit (Int × Int) :=
  { services := (), previousResult := none, state := (n, 999) }

/-- A configuration with no plugins over the pair state. -/
def c2cfg : MachineConfig Unit (Int × Int) :=
  { log := false, logLevel := "", plugins := [] }

/-- A step whose forward run increments the counter and fails with an ERROR
directive, and whose compensation records into the second slot the counter
value it starts from. -/
def c2step : Step Unit (Int × Int) :=
  { name := "S"
    execute := some fun c => ({ c with state := (c.state.1 + 1, c.state.2) }, .ok (error "fail"))
    beforeExecute := none
    afterExecute := none
    compensate := some fun c => ({ c with state := (c.state.1, c.state.1) }, .ok (done "comp"))
    beforeCompensate := none
    afterCompensate := none }

/-- One-step sequential machine exercising mutate-then-fail-then-compensate,
with initial counter `n`. -/
def c2machine (n : Int) : Machine Unit (Int × Int) :=
  NewMachine "M" [c2step] (c2ctx n) c2cfg .sequential

/-- A plugin whose three hooks all succeed without touching the context. -/
def quietPlugin : Plugin Unit Int :=
  { init := fun c => (c, none)
    execute := fun c => (c, none)
    cleanup := fun c => (c, none)
    modifyExecutionStrategy := none }

/-- One-plugin sequential machine whose only step fails with a function-level
error. -/
def machineC3err : Machine Unit Int :=
  NewMachine "M" [errFnStep "S"]
    ctxU { log := false, logLevel := "", plugins := [quietPlugin] } .sequential

/-- A small sequential machine used to instantiate hypotheses of general
theorems. -/
def mWitness : Machine Unit Int :=
  NewMachine "W" [okStep "S1", doneStep "S2"] ctxU cfgU .sequential

/-! ### Claims -/

/-- C8: for every machine, the Concurrent strategy with bound `N <= 1`
produces exactly the same result — response, error, final machine (hence
`ExecutedSteps`) and trace — as the Sequential strategy on the same inputs,
for both `Execute` and `Compensate`. -/
theorem concurrentBoundOneDelegates {σ τ : Type} (fuel : Nat) (es cs : List Nat)
    (n : Int) (m : Machine σ τ) (h : n ≤ 1) :
    strategyExecute fuel es cs (.concurrent n) m = strategyExecute fuel es cs .sequential m ∧
    strategyCompensate cs (.concurrent n) m = strategyCompensate cs .sequential m := by
  constructor <;> simp [strategyExecute, strategyCompensate, h]

/-- Witness for C8 at bound 1 on a concrete machine. -/
theorem concurrentBoundOneDelegates_witness :
    (1 : Int) ≤ 1 ∧
    (strategyExecute 3 [] [] (.concurrent 1) mWitness = strategyExecute 3 [] [] .sequential mWitness ∧
     strategyCompensate [] (.concurrent 1) mWitness = strategyCompensate [] .sequential mWitness) :=
  ⟨by decide, concurrentBoundOneDelegates 3 [] [] 1 mWitness (by decide)⟩

/-- C1 (bug evaluation): on a concurrent run with bound 2 in which one unit
records an error and compensation succeeds, `Execute` returns `(nil, nil)` —
the recorded error is received from the error channel and discarded — even
though compensation was triggered (the compensation of the completed step
ran, as the trace shows). -/
theorem concurrentErrorDiscarded :
    (runMachine 5 [0, 1] [0] machineC1).1 = .ret none none ∧
    compNames (runMachine 5 [0, 1] [0] machineC1).2.2 = ["A"] ∧
    (runMachine 5 [0, 1] [0] machineC1).2.1.executedSteps.map (fun s => s.name) = ["A"] := by
  exact ⟨rfl, rfl, rfl⟩

/-- C2 (counterexample): the compensation function does not start from the
initial state.  With initial counter 0, the forward run increments the
counter to 1 and fails; the compensation then observes 1 — the mutated
value at failure time — not the 0 the forward run started from. -/
theorem compensationSeesMutatedState :
    (runMachine 1 [] [] (c2machine 0)).2.1.context.state.2 = 1 ∧
    (c2machine 0).context.state.1 = 0 ∧ ((1 : Int) ≠ 0) := by
  exact ⟨rfl, rfl, by decide⟩

/-- C2 (amended): `Context` and `InitialContext` are the same reference, so
the reset at the start of compensation restores the reference but not the
values: for every initial counter `n`, the compensation starts from the
failure-time counter `n + 1` (recording it in the second slot), while the
run still reports the step failure. -/
theorem compensationStartsFromFailureTimeState (n : Int) :
    (runMachine 1 [] [] (c2machine n)).2.1.context.state = (n + 1, n + 1) ∧
    (runMachine 1 [] [] (c2machine n)).1 = .ret none (some "step S failed: fail") := by
  exact ⟨rfl, rfl⟩

/-- C3 (counterexample): a machine with one plugin whose run ends with an
error does not invoke the plugin's `Cleanup` hook at all — `Run` returns the
error before the cleanup loop. -/
theorem cleanupSkippedOnError :
    (runMachine 2 [] [] machineC3err).1 = .ret none (some "boom") ∧
    cleanupIdxs (runMachine 2 [] [] machineC3err).2.2 = [] ∧
    machineC3err.config.plugins.length = 1 := by
  exact ⟨rfl, rfl, rfl⟩

/-- C9: `Run` never clears the executed-step log — the log before the call is
a prefix of the log after it (every prior entry kept in its original
position, new entries only appended), and a second `Run` without a `Reset`
accumulates its entries after the first run's. -/
theorem runOnlyAppendsExecutedSteps {σ τ : Type} (fuel fuel2 : Nat)
    (es cs es2 cs2 : List Nat) (m : Machine σ τ) :
    (∃ t, ((runMachine fuel es cs m).2.1).executedSteps = m.executedSteps ++ t) ∧
    (∃ t t2, ((runMachine fuel2 es2 cs2 (runMachine fuel es cs m).2.1).2.1).executedSteps =
      m.executedSteps ++ t ++ t2) := by
  refine ⟨runMachine_executedSteps fuel es cs m, ?_⟩
  rcases runMachine_executedSteps fuel es cs m with ⟨t, h⟩
  rcases runMachine_executedSteps fuel2 es2 cs2 (runMachine fuel es cs m).2.1 with ⟨t2, h2⟩
  exact ⟨t, t2, by rw [h2, h, List.append_assoc]⟩

/-! ### Branch lemmas for the sequential loop -/

/-- The machine bookkeeping performed after a successful `executeStep`:
append the step to `ExecutedSteps` and record the response as
`PreviousResult`. -/
def stepAppended (m : Machine σ τ) (step : Step σ τ) (resp : Response) : Machine σ τ :=
  { m with context := { (executeStep m step).1 with previousResult := some resp }
           executedSteps := m.executedSteps ++ [step] }

theorem seqExecuteLoop_next (cs : List Nat) (fuel : Nat) (m : Machine σ τ) (i : Int)
    (step : Step σ τ) (resp : Response)
    (hlt : i < (m.steps.length : Int)) (hge : 0 ≤ i)
    (hstep : m.steps[i.toNat]? = some step)
    (hex : (executeStep m step).2.1 = .ok resp)
    (hst : resp.status = .NEXT) :
    seqExecuteLoop cs (fuel + 1) m i =
      prependTr (executeStep m step).2.2
        (seqExecuteLoop cs fuel (stepAppended m step resp) (i + 1)) := by
  simp [seqExecuteLoop, hlt, hge, hstep, hex, hst, stepAppended]

theorem seqExecuteLoop_done (cs : List Nat) (fuel : Nat) (m : Machine σ τ) (i : Int)
    (step : Step σ τ) (resp : Response)
    (hlt : i < (m.steps.length : Int)) (hge : 0 ≤ i)
    (hstep : m.steps[i.toNat]? = some step)
    (hex : (executeStep m step).2.1 = .ok resp)
    (hst : resp.status = .DONE) :
    seqExecuteLoop cs (fuel + 1) m i =
      (.ret (some resp) none, stepAppended m step resp, (executeStep m step).2.2) := by
  simp [seqExecuteLoop, hlt, hge, hstep, hex, hst, stepAppended]

theorem seqExecuteLoop_error (cs : List Nat) (fuel : Nat) (m : Machine σ τ) (i : Int)
    (step : Step σ τ) (resp : Response)
    (hlt : i < (m.steps.length : Int)) (hge : 0 ≤ i)
    (hstep : m.steps[i.toNat]? = some step)
    (hex : (executeStep m step).2.1 = .ok resp)
    (hst : resp.status = .ERROR) :
    seqExecuteLoop cs (fuel + 1) m i =
      (match (machineCompensate cs (stepAppended m step resp)).1.2 with
       | some e =>
         (.ret none (some ("compensate error: " ++ e)),
           (machineCompensate cs (stepAppended m step resp)).2.1,
           (executeStep m step).2.2 ++ (machineCompensate cs (stepAppended m step resp)).2.2)
       | none =>
         (.ret (machineCompensate cs (stepAppended m step resp)).1.1
            (some ("step " ++ step.name ++ " failed: " ++ resp.result)),
           (machineCompensate cs (stepAppended m step resp)).2.1,
           (executeStep m step).2.2 ++ (machineCompensate cs (stepAppended m step resp)).2.2)) := by
  simp [seqExecuteLoop, hlt, hge, hstep, hex, hst, stepAppended]

theorem seqExecuteLoop_skip (cs : List Nat) (fuel : Nat) (m : Machine σ τ) (i : Int)
    (step : Step σ τ) (resp : Response)
    (hlt : i < (m.steps.length : Int)) (hge : 0 ≤ i)
    (hstep : m.steps[i.toNat]? = some step)
    (hex : (executeStep m step).2.1 = .ok resp)
    (hst : resp.status = .SKIP) :
    seqExecuteLoop cs (fuel + 1) m i =
      prependTr (executeStep m step).2.2
        (seqExecuteLoop cs fuel (stepAppended m step resp) (i + resp.skipCount + 1)) := by
  simp [seqExecuteLoop, hlt, hge, hstep, hex, hst, stepAppended]

theorem seqExecuteLoop_jump_found (cs : List Nat) (fuel : Nat) (m : Machine σ τ) (i : Int)
    (step : Step σ τ) (resp : Response) (tgt : Nat)
    (hlt : i < (m.steps.length : Int)) (hge : 0 ≤ i)
    (hstep : m.steps[i.toNat]? = some step)
    (hex : (executeStep m step).2.1 = .ok resp)
    (hst : resp.status = .JUMP)
    (hfind : m.steps.findIdx? (fun s => s.name == resp.jumpTarget) = some tgt) :
    seqExecuteLoop cs (fuel + 1) m i =
      prependTr (executeStep m step).2.2
        (seqExecuteLoop cs fuel (stepAppended m step resp) (tgt : Int)) := by
  simp [seqExecuteLoop, hlt, hge, hstep, hex, hst, hfind, stepAppended]

theorem seqExecuteLoop_jump_missing (cs : List Nat) (fuel : Nat) (m : Machine σ τ) (i : Int)
    (step : Step σ τ) (resp : Response)
    (hlt : i < (m.steps.length : Int)) (hge : 0 ≤ i)
    (hstep : m.steps[i.toNat]? = some step)
    (hex : (executeStep m step).2.1 = .ok resp)
    (hst : resp.status = .JUMP)
    (hfind : m.steps.findIdx? (fun s => s.name == resp.jumpTarget) = none) :
    seqExecuteLoop cs (fuel + 1) m i =
      (.ret none
        (some ("jump target \x27" ++ resp.jumpTarget ++ "\x27 not found at " ++ step.name)),
        stepAppended m step resp, (executeStep m step).2.2) := by
  simp [seqExecuteLoop, hlt, hge, hstep, hex, hst, hfind, stepAppended]

/-! ### Characterisation lemmas for `executeStep` and compensation -/

/-- A scenario step that always answers NEXT and has no forward hooks. -/
def alwaysNext (s : Step σ τ) : Prop :=
  s.beforeExecute = none ∧ s.afterExecute = none ∧
  ∃ f, s.execute = some f ∧ ∀ ctx, ∃ ctx2 r, f ctx = (ctx2, .ok (next r))

/-- A scenario step whose compensation always succeeds and has no
compensation hooks. -/
def alwaysOkComp (s : Step σ τ) : Prop :=
  s.beforeCompensate = none ∧ s.afterCompensate = none ∧
  ∃ g, s.compensate = some g ∧ ∀ ctx, ∃ ctx2 resp, g ctx = (ctx2, .ok resp)

theorem executeStep_plain (m : Machine σ τ) (s : Step σ τ)
    (f : MachineContext σ τ → MachineContext σ τ × Except String Response)
    (hplug : m.config.plugins = [])
    (hb : s.beforeExecute = none) (ha : s.afterExecute = none)
    (hf : s.execute = some f) :
    executeStep m s = ((f m.context).1, (f m.context).2, [.execStep s.name]) := by
  rcases hr : (f m.context).2 with e | resp <;>
    simp [executeStep, pluginBeforeHooks, executeStepCore, hplug, hb, ha, hf, hr]

theorem compensateOneStep_plainOk (ctx : MachineContext σ τ) (s : Step σ τ)
    (g : MachineContext σ τ → MachineContext σ τ × Except String Response)
    (ctx2 : MachineContext σ τ) (resp : Response)
    (hb : s.beforeCompensate = none) (ha : s.afterCompensate = none)
    (hg : s.compensate = some g) (h : g ctx = (ctx2, .ok resp)) :
    compensateOneStep ctx s = (ctx2, none, [.compStep s.name]) := by
  simp [compensateOneStep, hb, ha, hg, h]

theorem compensateOneStep_compNames (ctx : MachineContext σ τ) (s : Step σ τ) :
    (compNames (compensateOneStep ctx s).2.2 = [] ∨
      compNames (compensateOneStep ctx s).2.2 = [s.name]) ∧
    ((compensateOneStep ctx s).2.1 = none →
      compNames (compensateOneStep ctx s).2.2 = [s.name]) := by
  unfold compensateOneStep
  rcases hb : s.beforeCompensate with _ | f
  · simp only [hb]
    rcases hc : s.compensate with _ | g
    · simp [hc, compNames]
    · simp only [hc]
      rcases hr : (g ctx).2 with e | r
      · simp [hr, compNames]
      · rcases ha : s.afterCompensate with _ | h2
        · simp [hr, ha, compNames]
        · simp [hr, ha, compNames]
  · simp only [hb]
    rcases he : (f ctx).2 with _ | e
    · simp only [he]
      rcases hc : s.compensate with _ | g
      · simp [hc, compNames]
      · simp only [hc]
        rcases hr : (g (f ctx).1).2 with e2 | r
        · simp [hr, compNames]
        · rcases ha : s.afterCompensate with _ | h2
          · simp [hr, ha, compNames]
          · simp [hr, ha, compNames]
    · simp [he, compNames]

theorem seqCompensateList_cons_fail (ctx : MachineContext σ τ) (s : Step σ τ)
    (rest : List (Step σ τ)) (e : String)
    (h : (compensateOneStep ctx s).2.1 = some e) :
    seqCompensateList ctx (s :: rest) =
      ((compensateOneStep ctx s).1, some e, (compensateOneStep ctx s).2.2) := by
  simp [seqCompensateList, h]

theorem seqCompensateList_cons_ok (ctx : MachineContext σ τ) (s : Step σ τ)
    (rest : List (Step σ τ))
    (h : (compensateOneStep ctx s).2.1 = none) :
    seqCompensateList ctx (s :: rest) =
      ((seqCompensateList (compensateOneStep ctx s).1 rest).1,
        (seqCompensateList (compensateOneStep ctx s).1 rest).2.1,
        (compensateOneStep ctx s).2.2 ++
          (seqCompensateList (compensateOneStep ctx s).1 rest).2.2) := by
  simp [seqCompensateList, h]

theorem seqCompensateList_allOk (l : List (Step σ τ))
    (h : ∀ st ∈ l, alwaysOkComp st) :
    ∀ ctx, ∃ ctx2, seqCompensateList ctx l =
      (ctx2, none, l.map fun st => .compStep st.name) := by
  induction l with
  | nil => intro ctx; exact ⟨ctx, by simp [seqCompensateList]⟩
  | cons s rest ih =>
    intro ctx
    obtain ⟨hb, ha, g, hg, hok⟩ := h s (by simp)
    obtain ⟨ctx2, resp, hgc⟩ := hok ctx
    have hone := compensateOneStep_plainOk ctx s g ctx2 resp hb ha hg hgc
    obtain ⟨ctx3, hrest⟩ := ih (fun st hst => h st (by simp [hst])) ctx2
    refine ⟨ctx3, ?_⟩
    rw [seqCompensateList_cons_ok ctx s rest (by simp [hone]), hone]
    simp [hrest]

theorem seqCompensateList_take (l : List (Step σ τ)) :
    ∀ ctx, ∃ k, k ≤ l.length ∧
      compNames (seqCompensateList ctx l).2.2 = ((l.take k).map fun s => s.name) ∧
      ((seqCompensateList ctx l).2.1 = none → k = l.length) ∧
      (k < l.length → (seqCompensateList ctx l).2.1 ≠ none) := by
  induction l with
  | nil => intro ctx; exact ⟨0, by simp [seqCompensateList, compNames]⟩
  | cons s rest ih =>
    intro ctx
    rcases herr : (compensateOneStep ctx s).2.1 with _ | e
    · obtain ⟨k, hk, hnames, hdone, hfail⟩ := ih (compensateOneStep ctx s).1
      have hcn := (compensateOneStep_compNames ctx s).2 herr
      refine ⟨k + 1, by simpa using hk, ?_, ?_, ?_⟩
      · rw [seqCompensateList_cons_ok ctx s rest herr]
        simp only [compNames, List.filterMap_append] at hnames ⊢
        simp only [compNames] at hcn
        simp [hcn, hnames, List.take_succ_cons]
      · rw [seqCompensateList_cons_ok ctx s rest herr]
        intro hn
        have := hdone hn
        simp only [List.length_cons]
        omega
      · intro hlt
        simp only [List.length_cons] at hlt
        rw [seqCompensateList_cons_ok ctx s rest herr]
        intro hn
        exact hfail (by omega) hn
    · rcases (compensateOneStep_compNames ctx s).1 with hcn | hcn
      · refine ⟨0, by simp, ?_, ?_, ?_⟩
        · rw [seqCompensateList_cons_fail ctx s rest e herr]
          simpa using hcn
        · rw [seqCompensateList_cons_fail ctx s rest e herr]
          simp
        · intro _
          rw [seqCompensateList_cons_fail ctx s rest e herr]
          simp
      · refine ⟨1, by simp, ?_, ?_, ?_⟩
        · rw [seqCompensateList_cons_fail ctx s rest e herr]
          simpa [List.take_succ_cons] using hcn
        · rw [seqCompensateList_cons_fail ctx s rest e herr]
          simp
        · intro _
          rw [seqCompensateList_cons_fail ctx s rest e herr]
          simp

/-- A step with no compensation function and no compensation hooks. -/
def noCompStep : Step Unit Int :=
  { okStep "N" with compensate := none }

/-- A machine with a non-empty executed-step log, for instantiating the
compensation protocol. -/
def mC5 : Machine Unit Int :=
  { mWitness with executedSteps := [okStep "A", okStep "B"] }

/-- C5: sequential compensation reads `ExecutedSteps` without changing it and
never synthesizes a response; the `Compensate` functions it invokes are
exactly those of a most-recent-first prefix of the log (so each executed
step's `Compensate` runs at most once, in reverse execution order), the
whole log is compensated when no failure occurs, stopping before the end
happens only on a failure, and a reached step with no `Compensate` function
is the fatal "no compensate function" error. -/
theorem sequentialCompensationProtocol {σ τ : Type} (m : Machine σ τ) :
    ((seqCompensate m).2.1).executedSteps = m.executedSteps ∧
    (seqCompensate m).1.1 = none ∧
    (∃ k, k ≤ m.executedSteps.length ∧
      compNames (seqCompensate m).2.2 =
        ((m.executedSteps.reverse.take k).map fun s => s.name) ∧
      ((seqCompensate m).1.2 = none → k = m.executedSteps.length) ∧
      (k < m.executedSteps.length → (seqCompensate m).1.2 ≠ none)) ∧
    (∀ (ctx : MachineContext σ τ) (s : Step σ τ) (rest : List (Step σ τ)),
      s.beforeCompensate = none → s.compensate = none →
      seqCompensateList ctx (s :: rest) =
        (ctx, some ("step " ++ s.name ++ " has no compensate function"), [])) := by
  refine ⟨rfl, rfl, ?_, ?_⟩
  · obtain ⟨k, hk, hnames, hdone, hfail⟩ :=
      seqCompensateList_take m.executedSteps.reverse m.context
    refine ⟨k, by simpa using hk, hnames, ?_, ?_⟩
    · intro h
      have := hdone h
      simpa using this
    · intro h
      exact hfail (by simpa using h)
  · intro ctx s rest hb hc
    simp [seqCompensateList, compensateOneStep, hb, hc]

/-- Witness for C5 on a concrete machine with a two-entry log, and for the
"no compensate function" clause on a concrete compensation-less step. -/
theorem sequentialCompensationProtocol_witness :
    ((seqCompensate mC5).2.1).executedSteps = mC5.executedSteps ∧
    seqCompensateList ctxU [noCompStep] =
      (ctxU, some "step N has no compensate function", []) :=
  ⟨(sequentialCompensationProtocol mC5).1,
    (sequentialCompensationProtocol mC5).2.2.2 ctxU noCompStep [] rfl rfl⟩

/-! ### Execution-count lemmas -/

theorem prependTr_prependTr {α β : Type} (a b : List Event) (x : α × β × List Event) :
    prependTr a (prependTr b x) = prependTr (a ++ b) x := by
  simp [prependTr, List.append_assoc]

theorem machineCompensate_seq (cs : List Nat) (m : Machine σ τ)
    (h : m.strategy = .sequential) :
    machineCompensate cs m = seqCompensate m := by
  simp [machineCompensate, strategyCompensate, h]

theorem compensateOneStep_compFail (ctx : MachineContext σ τ) (s : Step σ τ)
    (g : MachineContext σ τ → MachineContext σ τ × Except String Response)
    (ctx2 : MachineContext σ τ) (ce : String)
    (hb : s.beforeCompensate = none) (hg : s.compensate = some g)
    (hgc : g ctx = (ctx2, .error ce)) :
    compensateOneStep ctx s = (ctx2, some ce, [.compStep s.name]) := by
  simp [compensateOneStep, hb, hg, hgc]

theorem seqExecuteLoop_nextPrefix (cs : List Nat) :
    ∀ (pre rest : List (Step σ τ)) (m : Machine σ τ) (i fuel : Nat),
      m.config.plugins = [] →
      m.steps.drop i = pre ++ rest →
      (∀ s ∈ pre, alwaysNext s) →
      ∃ ctx2, seqExecuteLoop cs (pre.length + fuel) m (i : Int) =
        prependTr (pre.map fun s => .execStep s.name)
          (seqExecuteLoop cs fuel
            { m with context := ctx2, executedSteps := m.executedSteps ++ pre }
            ((i + pre.length : Nat) : Int)) := by
  intro pre
  induction pre with
  | nil =>
    intro rest m i fuel _ _ _
    refine ⟨m.context, ?_⟩
    simp [prependTr]
  | cons s t ih =>
    intro rest m i fuel hplug hd hpre
    obtain ⟨hbe, hae, f, hf, hall⟩ := hpre s (by simp)
    obtain ⟨ctxa, r, hfc⟩ := hall m.context
    have hlen : i < m.steps.length := by
      have := congrArg List.length hd
      simp [List.length_drop] at this
      omega
    have htoNat : ((i : Int)).toNat = i := by omega
    have hlt : (i : Int) < (m.steps.length : Int) := by omega
    have hge : (0 : Int) ≤ (i : Int) := by omega
    have hstep : m.steps[((i : Int)).toNat]? = some s := by
      rw [htoNat]
      have h0 : (m.steps.drop i)[0]? = some s := by rw [hd]; simp
      rwa [List.getElem?_drop, Nat.add_zero] at h0
    have hexec : executeStep m s = ((f m.context).1, (f m.context).2, [.execStep s.name]) :=
      executeStep_plain m s f hplug hbe hae hf
    have hex : (executeStep m s).2.1 = .ok (next r) := by rw [hexec, hfc]
    have hfuel : (s :: t).length + fuel = (t.length + fuel) + 1 := by
      simp [List.length_cons]; omega
    rw [hfuel, seqExecuteLoop_next cs (t.length + fuel) m (i : Int) s (next r) hlt hge
      hstep hex rfl]
    have hdrop : (stepAppended m s (next r)).steps.drop (i + 1) = t ++ rest := by
      show m.steps.drop (i + 1) = t ++ rest
      rw [← List.drop_drop, hd]
      simp
    obtain ⟨ctx3, hrec⟩ := ih rest (stepAppended m s (next r)) (i + 1) fuel
      (by show m.config.plugins = []; exact hplug) hdrop
      (fun q hq => hpre q (by simp [hq]))
    refine ⟨ctx3, ?_⟩
    rw [show ((i : Int)) + 1 = ((i + 1 : Nat) : Int) from by omega]
    rw [hrec, prependTr_prependTr]
    have hcur : (i + 1) + t.length = i + (s :: t).length := by
      simp [List.length_cons]
      omega
    rw [hcur, hexec]
    simp [stepAppended, List.append_assoc]

theorem runMachine_noPlugins_seq_out (fuel : Nat) (es cs : List Nat) (m : Machine σ τ)
    (hplug : m.config.plugins = []) (hstrat : m.strategy = .sequential)
    (hne : ¬ m.steps.length = 0) :
    (runMachine fuel es cs m).1 =
      (match (seqExecuteLoop cs fuel m 0).1 with
       | .ret _ (some e) => .ret none (some e)
       | o => o) := by
  simp only [runMachine, if_neg hne, hplug, pluginInitPhase, hstrat, strategyExecute, seqExecute]
  have hcfg := (seqExecuteLoop_frame cs fuel m 0).2.1
  cases hout : (seqExecuteLoop cs fuel m 0).1 with
  | ret resp err =>
    rcases err with _ | e
    · simp [hout, pluginCleanupPhase, hcfg, hplug]
    · simp [hout]
  | panicked => simp [hout]
  | fuelOut => simp [hout]

theorem runMachine_noPlugins_seq_log (fuel : Nat) (es cs : List Nat) (m : Machine σ τ)
    (hplug : m.config.plugins = []) (hstrat : m.strategy = .sequential)
    (hne : ¬ m.steps.length = 0) :
    ((runMachine fuel es cs m).2.1).executedSteps =
      ((seqExecuteLoop cs fuel m 0).2.1).executedSteps := by
  simp only [runMachine, if_neg hne, hplug, pluginInitPhase, hstrat, strategyExecute, seqExecute]
  have hcfg := (seqExecuteLoop_frame cs fuel m 0).2.1
  cases hout : (seqExecuteLoop cs fuel m 0).1 with
  | ret resp err =>
    rcases err with _ | e
    · simp [hout, pluginCleanupPhase, hcfg, hplug]
    · simp [hout]
  | panicked => simp [hout]
  | fuelOut => simp [hout]

/-- C4: under the Sequential strategy, when after a prefix of NEXT-steps the
step `s` returns an ERROR response with result `r`, forward execution
terminates, compensation is triggered, `Run` returns a nil response, and:
if every compensation succeeds the run's error is
"step (name) failed: (result)", while if `s`'s own compensation function
fails with `ce` the distinct "compensate error: (ce)" supersedes it. -/
theorem errorDirectiveTerminatesAndCompensates {σ τ : Type}
    (m : Machine σ τ) (pre post : List (Step σ τ)) (s : Step σ τ) (r : String)
    (fuel : Nat) (es cs : List Nat)
    (hplug : m.config.plugins = [])
    (hstrat : m.strategy = .sequential)
    (hlog : m.executedSteps = [])
    (hsteps : m.steps = pre ++ s :: post)
    (hpre : ∀ p ∈ pre, alwaysNext p)
    (hbe : s.beforeExecute = none) (hae : s.afterExecute = none)
    (hex : ∃ f, s.execute = some f ∧ ∀ ctx, ∃ ctx2, f ctx = (ctx2, .ok (error r))) :
    ((∀ p ∈ pre, alwaysOkComp p) → alwaysOkComp s →
      (runMachine (pre.length + (fuel + 1)) es cs m).1 =
        .ret none (some ("step " ++ s.name ++ " failed: " ++ r))) ∧
    (∀ g ce, s.beforeCompensate = none → s.compensate = some g →
      (∀ ctx, ∃ ctx2, g ctx = (ctx2, .error ce)) →
      (runMachine (pre.length + (fuel + 1)) es cs m).1 =
        .ret none (some ("compensate error: " ++ ce))) := by
  obtain ⟨f, hf, hall⟩ := hex
  have hne : ¬ m.steps.length = 0 := by rw [hsteps]; simp
  have hlenS : m.steps.length = pre.length + (post.length + 1) := by rw [hsteps]; simp
  obtain ⟨ctx2, hpref⟩ := seqExecuteLoop_nextPrefix cs pre (s :: post) m 0 (fuel + 1) hplug
    (by simpa using hsteps) hpre
  rw [hlog] at hpref
  simp only [List.nil_append, Nat.cast_zero, Nat.zero_add] at hpref
  set M1 : Machine σ τ := { m with context := ctx2, executedSteps := pre } with hM1
  have hM1steps : M1.steps = m.steps := rfl
  have hM1plug : M1.config.plugins = [] := hplug
  obtain ⟨ctx3, hfc⟩ := hall M1.context
  have hexecS : executeStep M1 s = ((f M1.context).1, (f M1.context).2, [.execStep s.name]) :=
    executeStep_plain M1 s f hM1plug hbe hae hf
  have hexS : (executeStep M1 s).2.1 = .ok (error r) := by rw [hexecS, hfc]
  have htoN : ((pre.length : Int)).toNat = pre.length := by omega
  have hplen : pre.length < m.steps.length := by omega
  have hlt1 : (pre.length : Int) < (M1.steps.length : Int) := by
    rw [hM1steps]; exact_mod_cast hplen
  have hge1 : (0 : Int) ≤ (pre.length : Int) := by exact_mod_cast Nat.zero_le _
  have hstep1 : M1.steps[((pre.length : Int)).toNat]? = some s := by
    rw [htoN, hM1steps]
    have h0 : (m.steps.drop pre.length)[0]? = some s := by
      rw [hsteps, List.drop_left]; simp
    rwa [List.getElem?_drop, Nat.add_zero] at h0
  have hstrat2 : (stepAppended M1 s (error r)).strategy = .sequential := hstrat
  have hlogs : (stepAppended M1 s (error r)).executedSteps = pre ++ [s] := rfl
  have hloop := seqExecuteLoop_error cs fuel M1 (pre.length : Int) s (error r)
    hlt1 hge1 hstep1 hexS rfl
  rw [machineCompensate_seq cs _ hstrat2] at hloop
  constructor
  · intro hcomp hcs
    have hallOk : ∀ st ∈ s :: pre.reverse, alwaysOkComp st := by
      intro st hst
      rcases List.mem_cons.mp hst with rfl | hst
      · exact hcs
      · exact hcomp st (List.mem_reverse.mp hst)
    obtain ⟨ctx4, hlist⟩ := seqCompensateList_allOk (s :: pre.reverse) hallOk
      (stepAppended M1 s (error r)).context
    rw [runMachine_noPlugins_seq_out _ es cs m hplug hstrat hne, hpref]
    simp only [prependTr_out]
    rw [hloop]
    simp only [seqCompensate, hlogs, List.reverse_append, List.reverse_singleton,
      List.singleton_append, hlist]
    simp [error, NewResponse]
  · intro g ce hgb hgs hgall
    obtain ⟨ctx5, hgc⟩ := hgall (stepAppended M1 s (error r)).context
    have hone := compensateOneStep_compFail (stepAppended M1 s (error r)).context s g ctx5 ce
      hgb hgs hgc
    have hlist := seqCompensateList_cons_fail (stepAppended M1 s (error r)).context s
      pre.reverse ce (by rw [hone])
    rw [runMachine_noPlugins_seq_out _ es cs m hplug hstrat hne, hpref]
    simp only [prependTr_out]
    rw [hloop]
    simp only [seqCompensate, hlogs, List.reverse_append, List.reverse_singleton,
      List.singleton_append, hlist]

/-- A step returning an ERROR directive with result "bad", compensable. -/
def errDirStep : Step Unit Int :=
  { okStep "E" with execute := some fun c => (c, .ok (error "bad")) }

/-- The same ERROR-directive step with a failing compensation function. -/
def errDirStepBadComp : Step Unit Int :=
  { errDirStep with compensate := some fun c => (c, .error "cboom") }

/-- Two-step machine: NEXT then ERROR with succeeding compensations. -/
def mC4a : Machine Unit Int := NewMachine "M" [okStep "P", errDirStep] ctxU cfgU .sequential

/-- Two-step machine: NEXT then ERROR whose compensation fails. -/
def mC4b : Machine Unit Int :=
  NewMachine "M" [okStep "P", errDirStepBadComp] ctxU cfgU .sequential

/-- Witness for C4 on the two concrete machines: the step failure is
reported, and a compensation failure supersedes it. -/
theorem errorDirectiveTerminatesAndCompensates_witness :
    (runMachine 2 [] [] mC4a).1 = .ret none (some "step E failed: bad") ∧
    (runMachine 2 [] [] mC4b).1 = .ret none (some "compensate error: cboom") := by
  have hpre : ∀ p ∈ [okStep "P"], alwaysNext p := by
    intro p hp
    have : p = okStep "P" := by simpa using hp
    subst this
    exact ⟨rfl, rfl, _, rfl, fun ctx => ⟨ctx, "nx", rfl⟩⟩
  have hcomp : ∀ p ∈ [okStep "P"], alwaysOkComp p := by
    intro p hp
    have : p = okStep "P" := by simpa using hp
    subst this
    exact ⟨rfl, rfl, _, rfl, fun ctx => ⟨ctx, done "cp", rfl⟩⟩
  constructor
  · exact (errorDirectiveTerminatesAndCompensates mC4a [okStep "P"] [] errDirStep "bad" 0 [] []
      rfl rfl rfl rfl hpre rfl rfl ⟨_, rfl, fun ctx => ⟨ctx, rfl⟩⟩).1 hcomp
      ⟨rfl, rfl, _, rfl, fun ctx => ⟨ctx, done "cp", rfl⟩⟩
  · exact (errorDirectiveTerminatesAndCompensates mC4b [okStep "P"] [] errDirStepBadComp "bad"
      0 [] [] rfl rfl rfl rfl hpre rfl rfl ⟨_, rfl, fun ctx => ⟨ctx, rfl⟩⟩).2
      (fun c => (c, .error "cboom")) "cboom" rfl rfl (fun ctx => ⟨ctx, rfl⟩)

/-- C6: under the Sequential strategy, a SKIP response with count `k ≥ 0`
advances the cursor to `i + k + 1` after the usual bookkeeping — with
`k = 0` this is exactly the NEXT transition — and in a full run a SKIP with
count `mid.length` causes the `mid` steps to be absent from `ExecutedSteps`,
execution resuming at the step after them. -/
theorem skipAdvancesCursor {σ τ : Type} :
    (∀ (cs : List Nat) (fuel : Nat) (m : Machine σ τ) (i : Int) (step : Step σ τ)
        (resp : Response),
      i < (m.steps.length : Int) → 0 ≤ i →
      m.steps[i.toNat]? = some step →
      (executeStep m step).2.1 = .ok resp →
      (resp.status = .SKIP →
        seqExecuteLoop cs (fuel + 1) m i =
          prependTr (executeStep m step).2.2
            (seqExecuteLoop cs fuel (stepAppended m step resp) (i + resp.skipCount + 1))) ∧
      (resp.status = .NEXT →
        seqExecuteLoop cs (fuel + 1) m i =
          prependTr (executeStep m step).2.2
            (seqExecuteLoop cs fuel (stepAppended m step resp) (i + 1)))) ∧
    (∀ (m : Machine σ τ) (pre mid post : List (Step σ τ)) (sk d : Step σ τ)
        (rs rd : String) (fuel : Nat) (es cs : List Nat),
      m.config.plugins = [] →
      m.strategy = .sequential →
      m.steps = pre ++ sk :: (mid ++ d :: post) →
      (∀ p ∈ pre, alwaysNext p) →
      sk.beforeExecute = none → sk.afterExecute = none →
      (∃ f, sk.execute = some f ∧
        ∀ ctx, ∃ ctx2, f ctx = (ctx2, .ok (skip rs (mid.length : Int)))) →
      d.beforeExecute = none → d.afterExecute = none →
      (∃ f, d.execute = some f ∧ ∀ ctx, ∃ ctx2, f ctx = (ctx2, .ok (done rd))) →
      (runMachine (pre.length + (fuel + 2)) es cs m).1 = .ret (some (done rd)) none ∧
      ((runMachine (pre.length + (fuel + 2)) es cs m).2.1).executedSteps =
        m.executedSteps ++ pre ++ [sk, d]) := by
  constructor
  · intro cs fuel m i step resp hlt hge hstep hex
    exact ⟨fun hst => seqExecuteLoop_skip cs fuel m i step resp hlt hge hstep hex hst,
      fun hst => seqExecuteLoop_next cs fuel m i step resp hlt hge hstep hex hst⟩
  · intro m pre mid post sk d rs rd fuel es cs hplug hstrat hsteps hpre hskb hska hskex
      hdb hda hdex
    obtain ⟨f, hf, hall⟩ := hskex
    obtain ⟨g, hg, hgall⟩ := hdex
    have hne : ¬ m.steps.length = 0 := by rw [hsteps]; simp
    have hsplit : m.steps = (pre ++ sk :: mid) ++ (d :: post) := by
      rw [hsteps]; simp
    have hlenS : m.steps.length = pre.length + mid.length + 1 + (post.length + 1) := by
      rw [hsteps]; simp; omega
    obtain ⟨ctx2, hpref⟩ := seqExecuteLoop_nextPrefix cs pre (sk :: (mid ++ d :: post)) m 0
      (fuel + 2) hplug (by simpa using hsteps) hpre
    simp only [Nat.cast_zero, Nat.zero_add] at hpref
    set M1 : Machine σ τ :=
      { m with context := ctx2, executedSteps := m.executedSteps ++ pre } with hM1
    obtain ⟨ctx3, hfc⟩ := hall M1.context
    have hexecSk : executeStep M1 sk =
        ((f M1.context).1, (f M1.context).2, [.execStep sk.name]) :=
      executeStep_plain M1 sk f hplug hskb hska hf
    have hexSk : (executeStep M1 sk).2.1 = .ok (skip rs (mid.length : Int)) := by
      rw [hexecSk, hfc]
    have htoN : ((pre.length : Int)).toNat = pre.length := by omega
    have hlt1 : (pre.length : Int) < (M1.steps.length : Int) := by
      show (pre.length : Int) < (m.steps.length : Int)
      omega
    have hge1 : (0 : Int) ≤ (pre.length : Int) := by omega
    have hstep1 : M1.steps[((pre.length : Int)).toNat]? = some sk := by
      rw [htoN]
      show m.steps[pre.length]? = some sk
      have h0 : (m.steps.drop pre.length)[0]? = some sk := by
        rw [hsteps, List.drop_left]; simp
      rwa [List.getElem?_drop, Nat.add_zero] at h0
    have hskip1 := seqExecuteLoop_skip cs (fuel + 1) M1 (pre.length : Int) sk
      (skip rs (mid.length : Int)) hlt1 hge1 hstep1 hexSk rfl
    set M2 : Machine σ τ := stepAppended M1 sk (skip rs (mid.length : Int)) with hM2
    have hcur : (pre.length : Int) + (skip rs (mid.length : Int)).skipCount + 1 =
        ((pre.length + mid.length + 1 : Nat) : Int) := by
      show (pre.length : Int) + (mid.length : Int) + 1 = _
      push_cast
      ring
    rw [hcur] at hskip1
    obtain ⟨ctx4, hgc⟩ := hgall M2.context
    have hexecD : executeStep M2 d =
        ((g M2.context).1, (g M2.context).2, [.execStep d.name]) :=
      executeStep_plain M2 d g hplug hdb hda hg
    have hexD : (executeStep M2 d).2.1 = .ok (done rd) := by rw [hexecD, hgc]
    have htoN2 : (((pre.length + mid.length + 1 : Nat) : Int)).toNat =
        pre.length + mid.length + 1 := by omega
    have hlt2 : ((pre.length + mid.length + 1 : Nat) : Int) < (M2.steps.length : Int) := by
      show _ < (m.steps.length : Int)
      omega
    have hge2 : (0 : Int) ≤ ((pre.length + mid.length + 1 : Nat) : Int) := by omega
    have hstep2 : M2.steps[(((pre.length + mid.length + 1 : Nat) : Int)).toNat]? = some d := by
      rw [htoN2]
      show m.steps[pre.length + mid.length + 1]? = some d
      have hlen2 : (pre ++ sk :: mid).length = pre.length + mid.length + 1 := by
        simp; omega
      have h0 : (m.steps.drop (pre.length + mid.length + 1))[0]? = some d := by
        rw [hsplit, ← hlen2, List.drop_left]; simp
      rwa [List.getElem?_drop, Nat.add_zero] at h0
    have hdone1 := seqExecuteLoop_done cs fuel M2 ((pre.length + mid.length + 1 : Nat) : Int)
      d (done rd) hlt2 hge2 hstep2 hexD rfl
    constructor
    · rw [runMachine_noPlugins_seq_out _ es cs m hplug hstrat hne, hpref]
      simp only [prependTr_out]
      rw [hskip1]
      simp only [prependTr_out]
      rw [hdone1]
    · rw [runMachine_noPlugins_seq_log _ es cs m hplug hstrat hne, hpref]
      simp only [prependTr_mid]
      rw [hskip1]
      simp only [prependTr_mid]
      rw [hdone1]
      show ((m.executedSteps ++ pre) ++ [sk]) ++ [d] = m.executedSteps ++ pre ++ [sk, d]
      simp

/-- A step returning SKIP with count 1. -/
def skipStep1 : Step Unit Int :=
  { okStep "K" with execute := some fun c => (c, .ok (skip "sk" 1)) }

/-- Three-step machine: SKIP(1), a skipped step, DONE. -/
def mC6 : Machine Unit Int :=
  NewMachine "M" [skipStep1, okStep "M1", doneStep "D"] ctxU cfgU .sequential

/-- Witness for C6: on the concrete machine the middle step is absent from
the log and the run finishes with the DONE response of the step after it. -/
theorem skipAdvancesCursor_witness :
    (runMachine 2 [] [] mC6).1 = .ret (some (done "dn")) none ∧
    ((runMachine 2 [] [] mC6).2.1).executedSteps =
      mC6.executedSteps ++ [] ++ [skipStep1, doneStep "D"] :=
  skipAdvancesCursor.2 mC6 [] [okStep "M1"] [] skipStep1 (doneStep "D") "sk" "dn" 0 [] []
    rfl rfl rfl (by intro p hp; simp at hp) rfl rfl
    ⟨_, rfl, fun ctx => ⟨ctx, rfl⟩⟩ rfl rfl ⟨_, rfl, fun ctx => ⟨ctx, rfl⟩⟩

/-! ### Linear-scan lemmas for JUMP resolution -/

theorem findIdx?_all_false {α : Type} (p : α → Bool) :
    ∀ (l : List α) (i : Nat), (∀ a ∈ l, p a = false) → List.findIdx? p l i = none := by
  intro l
  induction l with
  | nil => intro i _; rfl
  | cons x xs ih =>
    intro i h
    rw [List.findIdx?_cons, h x (by simp)]
    simp only [Bool.false_eq_true, if_false]
    exact ih (i + 1) (fun a ha => h a (by simp [ha]))

theorem findIdx?_append_cons {α : Type} (p : α → Bool) :
    ∀ (A : List α) (x : α) (B : List α) (i : Nat),
      (∀ a ∈ A, p a = false) → p x = true →
      List.findIdx? p (A ++ x :: B) i = some (i + A.length) := by
  intro A
  induction A with
  | nil => intro x B i _ hx; simp [List.findIdx?_cons, hx]
  | cons a A' ih =>
    intro x B i h hx
    simp only [List.cons_append, List.findIdx?_cons, h a (by simp)]
    simp only [Bool.false_eq_true, if_false]
    rw [ih x B (i + 1) (fun q hq => h q (by simp [hq])) hx]
    congr 1
    simp [List.length_cons]
    omega

/-- A step returning JUMP to the given target name. -/
def jumpStepTo (t : String) : Step Unit Int :=
  { okStep "J" with execute := some fun c => (c, .ok (jump "jp" t)) }

/-- A step whose execute function answers NEXT (incrementing the counter) on
its first visit and DONE once the counter reached 1, so that a backward jump
to it terminates. -/
def backTargetStep : Step Unit Int :=
  { okStep "T" with execute := some fun c =>
      if c.state ≥ 1 then (c, .ok (done "t2"))
      else ({ c with state := c.state + 1 }, .ok (next "t1")) }

/-- Two-step machine whose second step jumps backward to the first. -/
def mC7back : Machine Unit Int :=
  NewMachine "M" [backTargetStep, jumpStepTo "T"] ctxU cfgU .sequential

/-- C7: under the Sequential strategy a JUMP resolves its target by linear
scan of `Steps` for the first matching name and continues from the scanned
index, wherever it lies relative to the current cursor — the first two
clauses are the transition for every machine, cursor and target index
(backward or forward), and for a scan that finds nothing the fatal
"jump target not found" error with the jumping step already appended to
`ExecutedSteps`.  The run-level clauses then show: a forward first match is
reached with the steps in between absent from `ExecutedSteps`; an
unresolved JUMP ends the run with the not-found error and the log holding
everything up to and including the jumping step; and on a concrete machine a
backward JUMP re-enters the earlier-index step named by the target (the
next executed step after the jumping one is the first step named "T", at an
index before the jumping step's). -/
theorem jumpTargetsFirstMatch {σ τ : Type} :
    (∀ (cs : List Nat) (fuel : Nat) (m : Machine σ τ) (i : Int) (step : Step σ τ)
        (resp : Response) (tgt : Nat),
      i < (m.steps.length : Int) → 0 ≤ i →
      m.steps[i.toNat]? = some step →
      (executeStep m step).2.1 = .ok resp →
      resp.status = .JUMP →
      m.steps.findIdx? (fun s => s.name == resp.jumpTarget) = some tgt →
      seqExecuteLoop cs (fuel + 1) m i =
        prependTr (executeStep m step).2.2
          (seqExecuteLoop cs fuel (stepAppended m step resp) (tgt : Int))) ∧
    (∀ (cs : List Nat) (fuel : Nat) (m : Machine σ τ) (i : Int) (step : Step σ τ)
        (resp : Response),
      i < (m.steps.length : Int) → 0 ≤ i →
      m.steps[i.toNat]? = some step →
      (executeStep m step).2.1 = .ok resp →
      resp.status = .JUMP →
      m.steps.findIdx? (fun s => s.name == resp.jumpTarget) = none →
      seqExecuteLoop cs (fuel + 1) m i =
        (.ret none
          (some ("jump target \x27" ++ resp.jumpTarget ++ "\x27 not found at " ++ step.name)),
          stepAppended m step resp, (executeStep m step).2.2)) ∧
    (∀ (m : Machine σ τ) (pre mid post : List (Step σ τ)) (j tgt : Step σ τ)
        (rj rd tname : String) (fuel : Nat) (es cs : List Nat),
      m.config.plugins = [] →
      m.strategy = .sequential →
      m.steps = pre ++ j :: (mid ++ tgt :: post) →
      (∀ p ∈ pre, alwaysNext p) →
      (∀ p ∈ pre, p.name ≠ tname) →
      j.name ≠ tname →
      (∀ p ∈ mid, p.name ≠ tname) →
      tgt.name = tname →
      j.beforeExecute = none → j.afterExecute = none →
      (∃ f, j.execute = some f ∧ ∀ ctx, ∃ ctx2, f ctx = (ctx2, .ok (jump rj tname))) →
      tgt.beforeExecute = none → tgt.afterExecute = none →
      (∃ g, tgt.execute = some g ∧ ∀ ctx, ∃ ctx2, g ctx = (ctx2, .ok (done rd))) →
      (runMachine (pre.length + (fuel + 2)) es cs m).1 = .ret (some (done rd)) none ∧
      ((runMachine (pre.length + (fuel + 2)) es cs m).2.1).executedSteps =
        m.executedSteps ++ pre ++ [j, tgt]) ∧
    (∀ (m : Machine σ τ) (pre post : List (Step σ τ)) (j : Step σ τ)
        (rj tname : String) (fuel : Nat) (es cs : List Nat),
      m.config.plugins = [] →
      m.strategy = .sequential →
      m.steps = pre ++ j :: post →
      (∀ p ∈ pre, alwaysNext p) →
      (∀ p ∈ m.steps, p.name ≠ tname) →
      j.beforeExecute = none → j.afterExecute = none →
      (∃ f, j.execute = some f ∧ ∀ ctx, ∃ ctx2, f ctx = (ctx2, .ok (jump rj tname))) →
      (runMachine (pre.length + (fuel + 1)) es cs m).1 =
        .ret none (some ("jump target \x27" ++ tname ++ "\x27 not found at " ++ j.name)) ∧
      ((runMachine (pre.length + (fuel + 1)) es cs m).2.1).executedSteps =
        m.executedSteps ++ pre ++ [j]) ∧
    ((runMachine 3 [] [] mC7back).1 = .ret (some (done "t2")) none ∧
     ((runMachine 3 [] [] mC7back).2.1).executedSteps.map (fun s => s.name) =
       ["T", "J", "T"]) := by
  refine ⟨?_, ?_, ?_, ?_, ?_⟩
  · intro cs fuel m i step resp tgt hlt hge hstep hex hst hfind
    exact seqExecuteLoop_jump_found cs fuel m i step resp tgt hlt hge hstep hex hst hfind
  · intro cs fuel m i step resp hlt hge hstep hex hst hfind
    exact seqExecuteLoop_jump_missing cs fuel m i step resp hlt hge hstep hex hst hfind
  · intro m pre mid post j tgt rj rd tname fuel es cs hplug hstrat hsteps hpre hpren hjn
      hmidn htgtn hjb hja hjex htb hta htex
    obtain ⟨f, hf, hall⟩ := hjex
    obtain ⟨g, hg, hgall⟩ := htex
    have hne : ¬ m.steps.length = 0 := by rw [hsteps]; simp
    have hsplit : m.steps = (pre ++ j :: mid) ++ (tgt :: post) := by rw [hsteps]; simp
    have hlenS : m.steps.length = pre.length + mid.length + 1 + (post.length + 1) := by
      rw [hsteps]; simp; omega
    obtain ⟨ctx2, hpref⟩ := seqExecuteLoop_nextPrefix cs pre (j :: (mid ++ tgt :: post)) m 0
      (fuel + 2) hplug (by simpa using hsteps) hpre
    simp only [Nat.cast_zero, Nat.zero_add] at hpref
    set M1 : Machine σ τ :=
      { m with context := ctx2, executedSteps := m.executedSteps ++ pre } with hM1
    obtain ⟨ctx3, hfc⟩ := hall M1.context
    have hexecJ : executeStep M1 j =
        ((f M1.context).1, (f M1.context).2, [.execStep j.name]) :=
      executeStep_plain M1 j f hplug hjb hja hf
    have hexJ : (executeStep M1 j).2.1 = .ok (jump rj tname) := by rw [hexecJ, hfc]
    have htoN : ((pre.length : Int)).toNat = pre.length := by omega
    have hlt1 : (pre.length : Int) < (M1.steps.length : Int) := by
      show (pre.length : Int) < (m.steps.length : Int)
      omega
    have hge1 : (0 : Int) ≤ (pre.length : Int) := by omega
    have hstep1 : M1.steps[((pre.length : Int)).toNat]? = some j := by
      rw [htoN]
      show m.steps[pre.length]? = some j
      have h0 : (m.steps.drop pre.length)[0]? = some j := by
        rw [hsteps, List.drop_left]; simp
      rwa [List.getElem?_drop, Nat.add_zero] at h0
    have hfind : M1.steps.findIdx?
        (fun s => s.name == (jump rj tname).jumpTarget) = some (pre.length + mid.length + 1) := by
      show m.steps.findIdx? (fun s => s.name == tname) = _
      rw [hsplit, findIdx?_append_cons (fun s => s.name == tname) (pre ++ j :: mid) tgt post 0
        ?_ (by simp [htgtn])]
      · congr 1
        simp
        omega
      · intro a ha
        have : a.name ≠ tname := by
          rcases List.mem_append.mp ha with ha | ha
          · exact hpren a ha
          · rcases List.mem_cons.mp ha with rfl | ha
            · exact hjn
            · exact hmidn a ha
        simp [this]
    have hjump1 := seqExecuteLoop_jump_found cs (fuel + 1) M1 (pre.length : Int) j
      (jump rj tname) (pre.length + mid.length + 1) hlt1 hge1 hstep1 hexJ rfl hfind
    set M2 : Machine σ τ := stepAppended M1 j (jump rj tname) with hM2
    obtain ⟨ctx4, hgc⟩ := hgall M2.context
    have hexecT : executeStep M2 tgt =
        ((g M2.context).1, (g M2.context).2, [.execStep tgt.name]) :=
      executeStep_plain M2 tgt g hplug htb hta hg
    have hexT : (executeStep M2 tgt).2.1 = .ok (done rd) := by rw [hexecT, hgc]
    have htoN2 : (((pre.length + mid.length + 1 : Nat) : Int)).toNat =
        pre.length + mid.length + 1 := by omega
    have hlt2 : ((pre.length + mid.length + 1 : Nat) : Int) < (M2.steps.length : Int) := by
      show _ < (m.steps.length : Int)
      omega
    have hge2 : (0 : Int) ≤ ((pre.length + mid.length + 1 : Nat) : Int) := by omega
    have hstep2 : M2.steps[(((pre.length + mid.length + 1 : Nat) : Int)).toNat]? = some tgt := by
      rw [htoN2]
      show m.steps[pre.length + mid.length + 1]? = some tgt
      have hlen2 : (pre ++ j :: mid).length = pre.length + mid.length + 1 := by
        simp; omega
      have h0 : (m.steps.drop (pre.length + mid.length + 1))[0]? = some tgt := by
        rw [hsplit, ← hlen2, List.drop_left]; simp
      rwa [List.getElem?_drop, Nat.add_zero] at h0
    have hdone1 := seqExecuteLoop_done cs fuel M2 ((pre.length + mid.length + 1 : Nat) : Int)
      tgt (done rd) hlt2 hge2 hstep2 hexT rfl
    constructor
    · rw [runMachine_noPlugins_seq_out _ es cs m hplug hstrat hne, hpref]
      simp only [prependTr_out]
      rw [hjump1]
      simp only [prependTr_out]
      rw [hdone1]
    · rw [runMachine_noPlugins_seq_log _ es cs m hplug hstrat hne, hpref]
      simp only [prependTr_mid]
      rw [hjump1]
      simp only [prependTr_mid]
      rw [hdone1]
      show ((m.executedSteps ++ pre) ++ [j]) ++ [tgt] = m.executedSteps ++ pre ++ [j, tgt]
      simp
  · intro m pre post j rj tname fuel es cs hplug hstrat hsteps hpre hnone hjb hja hjex
    obtain ⟨f, hf, hall⟩ := hjex
    have hne : ¬ m.steps.length = 0 := by rw [hsteps]; simp
    have hlenS : m.steps.length = pre.length + (post.length + 1) := by rw [hsteps]; simp
    obtain ⟨ctx2, hpref⟩ := seqExecuteLoop_nextPrefix cs pre (j :: post) m 0
      (fuel + 1) hplug (by simpa using hsteps) hpre
    simp only [Nat.cast_zero, Nat.zero_add] at hpref
    set M1 : Machine σ τ :=
      { m with context := ctx2, executedSteps := m.executedSteps ++ pre } with hM1
    obtain ⟨ctx3, hfc⟩ := hall M1.context
    have hexecJ : executeStep M1 j =
        ((f M1.context).1, (f M1.context).2, [.execStep j.name]) :=
      executeStep_plain M1 j f hplug hjb hja hf
    have hexJ : (executeStep M1 j).2.1 = .ok (jump rj tname) := by rw [hexecJ, hfc]
    have htoN : ((pre.length : Int)).toNat = pre.length := by omega
    have hlt1 : (pre.length : Int) < (M1.steps.length : Int) := by
      show (pre.length : Int) < (m.steps.length : Int)
      omega
    have hge1 : (0 : Int) ≤ (pre.length : Int) := by omega
    have hstep1 : M1.steps[((pre.length : Int)).toNat]? = some j := by
      rw [htoN]
      show m.steps[pre.length]? = some j
      have h0 : (m.steps.drop pre.length)[0]? = some j := by
        rw [hsteps, List.drop_left]; simp
      rwa [List.getElem?_drop, Nat.add_zero] at h0
    have hfind : M1.steps.findIdx? (fun s => s.name == (jump rj tname).jumpTarget) = none := by
      show m.steps.findIdx? (fun s => s.name == tname) = none
      exact findIdx?_all_false _ m.steps 0 (fun a ha => by simp [hnone a ha])
    have hjump1 := seqExecuteLoop_jump_missing cs fuel M1 (pre.length : Int) j
      (jump rj tname) hlt1 hge1 hstep1 hexJ rfl hfind
    constructor
    · rw [runMachine_noPlugins_seq_out _ es cs m hplug hstrat hne, hpref]
      simp only [prependTr_out]
      rw [hjump1]
      rfl
    · rw [runMachine_noPlugins_seq_log _ es cs m hplug hstrat hne, hpref]
      simp only [prependTr_mid]
      rw [hjump1]
      show (m.executedSteps ++ pre) ++ [j] = m.executedSteps ++ pre ++ [j]
      rfl
  · exact ⟨rfl, rfl⟩

/-- Three-step machine: JUMP to "D", a bypassed step, the target "D". -/
def mC7 : Machine Unit Int :=
  NewMachine "M" [jumpStepTo "D", okStep "M1", doneStep "D"] ctxU cfgU .sequential

/-- Two-step machine whose JUMP names a nonexistent step. -/
def mC7n : Machine Unit Int :=
  NewMachine "M" [jumpStepTo "Z", doneStep "D"] ctxU cfgU .sequential

/-- Witness for C7 on the concrete machines: the general transition clause
instantiated at a backward jump (cursor 1 continuing at scanned index 0),
the jump landing on the first step named "D" (bypassing the middle step),
and the dangling jump reporting the not-found error with the jumping step
still logged. -/
theorem jumpTargetsFirstMatch_witness :
    (seqExecuteLoop ([] : List Nat) 1 mC7back 1 =
      prependTr (executeStep mC7back (jumpStepTo "T")).2.2
        (seqExecuteLoop [] 0 (stepAppended mC7back (jumpStepTo "T") (jump "jp" "T"))
          ((0 : Nat) : Int))) ∧
    ((runMachine 2 [] [] mC7).1 = .ret (some (done "dn")) none ∧
     ((runMachine 2 [] [] mC7).2.1).executedSteps =
       mC7.executedSteps ++ [] ++ [jumpStepTo "D", doneStep "D"]) ∧
    ((runMachine 1 [] [] mC7n).1 =
       .ret none (some ("jump target \x27Z\x27 not found at " ++ (jumpStepTo "Z").name)) ∧
     ((runMachine 1 [] [] mC7n).2.1).executedSteps =
       mC7n.executedSteps ++ [] ++ [jumpStepTo "Z"]) := by
  refine ⟨?_, ?_, ?_⟩
  · exact jumpTargetsFirstMatch.1 [] 0 mC7back 1 (jumpStepTo "T") (jump "jp" "T") 0
      (by decide) (by decide) rfl rfl rfl rfl
  · exact jumpTargetsFirstMatch.2.2.1 mC7 [] [okStep "M1"] [] (jumpStepTo "D") (doneStep "D")
      "jp" "dn" "D" 0 [] [] rfl rfl rfl
      (by intro p hp; simp at hp)
      (by intro p hp; simp at hp)
      (by decide)
      (by intro p hp
          rw [show p = okStep "M1" from by simpa using hp]
          decide)
      rfl rfl rfl ⟨_, rfl, fun ctx => ⟨ctx, rfl⟩⟩ rfl rfl ⟨_, rfl, fun ctx => ⟨ctx, rfl⟩⟩
  · exact jumpTargetsFirstMatch.2.2.2.1 mC7n [] [doneStep "D"] (jumpStepTo "Z") "jp" "Z" 0 [] []
      rfl rfl rfl
      (by intro p hp; simp at hp)
      (by intro p hp
          have : p = jumpStepTo "Z" ∨ p = doneStep "D" := by
            simpa [mC7n, NewMachine] using hp
          rcases this with rfl | rfl <;> decide)
      rfl rfl ⟨_, rfl, fun ctx => ⟨ctx, rfl⟩⟩

/-! ### Cleanup-event lemmas -/

theorem cleanupIdxs_append (a b : List Event) :
    cleanupIdxs (a ++ b) = cleanupIdxs a ++ cleanupIdxs b := by
  simp [cleanupIdxs, List.filterMap_append]

theorem cleanupIdxs_pluginBeforeHooks (ctx : MachineContext σ τ) (ps : List (Plugin σ τ))
    (idx : Nat) : cleanupIdxs (pluginBeforeHooks ctx ps idx).2.2 = [] := by
  induction ps generalizing ctx idx with
  | nil => simp [pluginBeforeHooks, cleanupIdxs]
  | cons p rest ih =>
    simp only [pluginBeforeHooks]
    rcases he : (p.execute ctx).2 with _ | e
    · simp only [he]
      show cleanupIdxs (Event.pluginBeforeStep idx ::
        (pluginBeforeHooks (p.execute ctx).1 rest (idx + 1)).2.2) = []
      simp [cleanupIdxs, List.filterMap_cons]
      have := ih (p.execute ctx).1 (idx + 1)
      simpa [cleanupIdxs] using this
    · simp [he, cleanupIdxs]

theorem cleanupIdxs_executeStepCore (ctx : MachineContext σ τ) (s : Step σ τ)
    (tr : List Event) :
    cleanupIdxs (executeStepCore ctx s tr).2.2 = cleanupIdxs tr := by
  unfold executeStepCore
  rcases hf : s.execute with _ | f
  · simp
  · rcases hr : (f ctx).2 with e | r
    · simp [hr, cleanupIdxs_append, cleanupIdxs]
    · rcases ha : s.afterExecute with _ | g
      · simp [hr, ha, cleanupIdxs_append, cleanupIdxs]
      · rcases hg : (g (f ctx).1).2 with _ | e <;>
          simp [hr, ha, hg, cleanupIdxs_append, cleanupIdxs]

theorem cleanupIdxs_executeStep (m : Machine σ τ) (s : Step σ τ) :
    cleanupIdxs (executeStep m s).2.2 = [] := by
  simp only [executeStep]
  have hph := cleanupIdxs_pluginBeforeHooks m.context m.config.plugins 0
  rcases hp : (pluginBeforeHooks m.context m.config.plugins 0).2.1 with _ | e
  · simp only [hp]
    rcases hb : s.beforeExecute with _ | f
    · simp only [hb]
      rw [cleanupIdxs_executeStepCore]
      exact hph
    · simp only [hb]
      rcases he : (f (pluginBeforeHooks m.context m.config.plugins 0).1).2 with _ | e
      · simp only [he]
        rw [cleanupIdxs_executeStepCore, cleanupIdxs_append, hph]
        simp [cleanupIdxs]
      · simp only [he]
        rw [cleanupIdxs_append, hph]
        simp [cleanupIdxs]
  · simp only [hp]
    exact hph

theorem cleanupIdxs_compensateOneStep (ctx : MachineContext σ τ) (s : Step σ τ) :
    cleanupIdxs (compensateOneStep ctx s).2.2 = [] := by
  unfold compensateOneStep
  rcases hb : s.beforeCompensate with _ | f
  · simp only [hb]
    rcases hc : s.compensate with _ | g
    · simp [hc, cleanupIdxs]
    · simp only [hc]
      rcases hr : (g ctx).2 with e | r
      · simp [hr, cleanupIdxs]
      · rcases ha : s.afterCompensate with _ | h2 <;>
          simp [hr, ha, cleanupIdxs]
  · simp only [hb]
    rcases he : (f ctx).2 with _ | e
    · simp only [he]
      rcases hc : s.compensate with _ | g
      · simp [hc, cleanupIdxs]
      · simp only [hc]
        rcases hr : (g (f ctx).1).2 with e2 | r
        · simp [hr, cleanupIdxs]
        · rcases ha : s.afterCompensate with _ | h2 <;>
            simp [hr, ha, cleanupIdxs]
    · simp [he, cleanupIdxs]

theorem cleanupIdxs_seqCompensateList (l : List (Step σ τ)) :
    ∀ ctx, cleanupIdxs (seqCompensateList ctx l).2.2 = [] := by
  induction l with
  | nil => intro ctx; simp [seqCompensateList, cleanupIdxs]
  | cons s rest ih =>
    intro ctx
    rcases herr : (compensateOneStep ctx s).2.1 with _ | e
    · rw [seqCompensateList_cons_ok ctx s rest herr]
      simp only []
      rw [cleanupIdxs_append, cleanupIdxs_compensateOneStep, ih]
      rfl
    · rw [seqCompensateList_cons_fail ctx s rest e herr]
      exact cleanupIdxs_compensateOneStep ctx s

theorem cleanupIdxs_concCompensateUnits (rev : List (Step σ τ)) (sched : List Nat) :
    ∀ ctx, cleanupIdxs (concCompensateUnits ctx rev sched).2.2 = [] := by
  induction sched with
  | nil => intro ctx; simp [concCompensateUnits, cleanupIdxs]
  | cons j rest ih =>
    intro ctx
    simp only [concCompensateUnits]
    rcases hj : rev[j]? with _ | step
    · exact ih ctx
    · rcases herr : (compensateOneStep ctx step).2.1 with _ | e <;>
        · simp only [herr]
          rw [cleanupIdxs_append, cleanupIdxs_compensateOneStep, ih]
          rfl

theorem cleanupIdxs_machineCompensate (cs : List Nat) (m : Machine σ τ) :
    cleanupIdxs (machineCompensate cs m).2.2 = [] := by
  rcases machineCompensate_cases cs m with h | h <;> rw [h]
  · exact cleanupIdxs_seqCompensateList m.executedSteps.reverse m.context
  · simp only [concCompensate]
    split <;> simp [cleanupIdxs_concCompensateUnits]

theorem cleanupIdxs_seqExecuteLoop (cs : List Nat) :
    ∀ (fuel : Nat) (m : Machine σ τ) (i : Int),
      cleanupIdxs (seqExecuteLoop cs fuel m i).2.2 = [] := by
  intro fuel
  induction fuel with
  | zero => intro m i; simp [seqExecuteLoop, cleanupIdxs]
  | succ f ih =>
    intro m i
    simp only [seqExecuteLoop]
    split
    · split
      · split
        · simp [cleanupIdxs]
        · rename_i step _
          split
          · exact cleanupIdxs_executeStep m step
          · rename_i resp _
            split
            · simp only [prependTr_trace]
              rw [cleanupIdxs_append, cleanupIdxs_executeStep, ih]
              rfl
            · exact cleanupIdxs_executeStep m step
            · split <;>
                · rw [cleanupIdxs_append, cleanupIdxs_executeStep, cleanupIdxs_machineCompensate]
                  rfl
            · simp only [prependTr_trace]
              rw [cleanupIdxs_append, cleanupIdxs_executeStep, ih]
              rfl
            · split
              · simp only [prependTr_trace]
                rw [cleanupIdxs_append, cleanupIdxs_executeStep, ih]
                rfl
              · exact cleanupIdxs_executeStep m step
      · simp [cleanupIdxs]
    · simp [cleanupIdxs]

theorem cleanupIdxs_concExecuteUnits (sched : List Nat) :
    ∀ (m : Machine σ τ), cleanupIdxs (concExecuteUnits m sched).2.2.2 = [] := by
  induction sched with
  | nil => intro m; simp [concExecuteUnits, cleanupIdxs]
  | cons j rest ih =>
    intro m
    simp only [concExecuteUnits]
    rcases hj : m.steps[j]? with _ | step
    · exact ih m
    · rcases he : (executeStep m step).2.1 with e | resp <;>
        · simp only [he]
          rw [cleanupIdxs_append, cleanupIdxs_executeStep, ih]
          rfl

theorem cleanupIdxs_concExecute (cs es : List Nat) (m : Machine σ τ) :
    cleanupIdxs (concExecute cs es m).2.2 = [] := by
  simp only [concExecute]
  split
  · split <;>
      · rw [cleanupIdxs_append, cleanupIdxs_concExecuteUnits, cleanupIdxs_machineCompensate]
        rfl
  · split <;> exact cleanupIdxs_concExecuteUnits es m

theorem cleanupIdxs_strategyExecute (fuel : Nat) (es cs : List Nat) (strat : Strategy)
    (m : Machine σ τ) : cleanupIdxs (strategyExecute fuel es cs strat m).2.2 = [] := by
  unfold strategyExecute
  cases strat with
  | sequential => exact cleanupIdxs_seqExecuteLoop cs fuel m 0
  | concurrent n =>
    by_cases h : n ≤ 1
    · simpa [h] using cleanupIdxs_seqExecuteLoop cs fuel m 0
    · simpa [h] using cleanupIdxs_concExecute cs es m

theorem cleanupIdxs_pluginInitPhase (m : Machine σ τ) (ps : List (Plugin σ τ)) (idx : Nat) :
    cleanupIdxs (pluginInitPhase m ps idx).2.2 = [] := by
  induction ps generalizing m idx with
  | nil => simp [pluginInitPhase, cleanupIdxs]
  | cons p rest ih =>
    simp only [pluginInitPhase]
    rcases he : (p.init m.context).2 with _ | e
    · rcases hs : p.modifyExecutionStrategy with _ | s <;>
        · simp only [he, hs]
          show cleanupIdxs (Event.pluginInit idx :: _) = []
          simp only [cleanupIdxs, List.filterMap_cons]
          exact ih _ (idx + 1)
    · simp [he, cleanupIdxs]

theorem cleanupIdxs_pluginCleanupPhase_ok (ps : List (Plugin σ τ)) :
    ∀ (ctx : MachineContext σ τ) (idx : Nat),
      (pluginCleanupPhase ctx ps idx).2.1 = none →
      cleanupIdxs (pluginCleanupPhase ctx ps idx).2.2 = List.range' idx ps.length := by
  induction ps with
  | nil => intro ctx idx _; simp [pluginCleanupPhase, cleanupIdxs]
  | cons p rest ih =>
    intro ctx idx h
    simp only [pluginCleanupPhase] at h ⊢
    rcases he : (p.cleanup ctx).2 with _ | e
    · simp only [he] at h ⊢
      show cleanupIdxs (Event.pluginCleanup idx :: _) = _
      simp only [cleanupIdxs, List.filterMap_cons]
      rw [List.length_cons, List.range'_succ]
      have := ih (p.cleanup ctx).1 (idx + 1) h
      simpa [cleanupIdxs] using this
    · simp [he] at h

/-- C3 (amended): the plugin `Cleanup` hooks run exactly once per plugin, in
order, after a run that concludes without an error; a run that returns an
error from the strategy phase skips them entirely (the counterexample
exhibits this), and when the strategy phase succeeds but a sole plugin's
`Cleanup` fails, `Run` reports the distinct "plugin cleanup error" even
though the run otherwise succeeded. -/
theorem cleanupRunsOnlyOnSuccess {σ τ : Type} :
    (∀ (fuel : Nat) (es cs : List Nat) (m : Machine σ τ) (resp : Option Response),
      (runMachine fuel es cs m).1 = .ret resp none →
      cleanupIdxs (runMachine fuel es cs m).2.2 = List.range m.config.plugins.length) ∧
    (∀ (fuel : Nat) (es cs : List Nat) (m : Machine σ τ) (p : Plugin σ τ) (ce : String)
        (resp : Option Response),
      m.config.plugins = [p] →
      ¬ m.steps.length = 0 →
      (∀ ctx, p.init ctx = (ctx, none)) →
      p.modifyExecutionStrategy = none →
      (∀ ctx, (p.cleanup ctx).2 = some ce) →
      (strategyExecute fuel es cs m.strategy m).1 = .ret resp none →
      (runMachine fuel es cs m).1 = .ret none (some ("plugin cleanup error: " ++ ce))) := by
  constructor
  · intro fuel es cs m resp h
    simp only [runMachine] at h ⊢
    by_cases hempty : m.steps.length = 0
    · rw [if_pos hempty] at h
      exact absurd h (by simp)
    · rw [if_neg hempty] at h ⊢
      rcases hini : (pluginInitPhase m m.config.plugins 0).2.1 with _ | e
      · simp only [hini] at h ⊢
        cases hout : (strategyExecute fuel es cs (pluginInitPhase m m.config.plugins 0).1.strategy
            (pluginInitPhase m m.config.plugins 0).1).1 with
        | ret resp2 err2 =>
          simp only [hout] at h ⊢
          rcases err2 with _ | e2
          · rcases hce : (pluginCleanupPhase
                (strategyExecute fuel es cs (pluginInitPhase m m.config.plugins 0).1.strategy
                  (pluginInitPhase m m.config.plugins 0).1).2.1.context
                (strategyExecute fuel es cs (pluginInitPhase m m.config.plugins 0).1.strategy
                  (pluginInitPhase m m.config.plugins 0).1).2.1.config.plugins 0).2.1
              with _ | e3
            · simp only [hce] at h ⊢
              rw [cleanupIdxs_append, cleanupIdxs_append, cleanupIdxs_pluginInitPhase,
                cleanupIdxs_strategyExecute]
              have hcfg : (strategyExecute fuel es cs
                    (pluginInitPhase m m.config.plugins 0).1.strategy
                    (pluginInitPhase m m.config.plugins 0).1).2.1.config = m.config := by
                rw [(strategyExecute_frame fuel es cs _ _).2.1,
                  (pluginInitPhase_frame m m.config.plugins 0).2.1]
              rw [cleanupIdxs_pluginCleanupPhase_ok _ _ _ hce, hcfg, List.range_eq_range']
              rfl
            · simp only [hce] at h
              exact absurd h (by simp)
          · exact absurd h (by simp)
        | panicked => rw [hout] at h; exact absurd h (by simp)
        | fuelOut => rw [hout] at h; exact absurd h (by simp)
      · simp only [hini] at h
        exact absurd h (by simp)
  · intro fuel es cs m p ce resp hplugins hne hinit hswap hcleanup hexec
    have hip : pluginInitPhase m m.config.plugins 0 = (m, none, [Event.pluginInit 0]) := by
      rw [hplugins]
      simp [pluginInitPhase, hinit m.context, hswap]
    simp only [runMachine, if_neg hne, hip]
    rw [hexec]
    have hcfg : (strategyExecute fuel es cs m.strategy m).2.1.config = m.config :=
      (strategyExecute_frame fuel es cs _ _).2.1
    have hcp : (pluginCleanupPhase (strategyExecute fuel es cs m.strategy m).2.1.context
        (strategyExecute fuel es cs m.strategy m).2.1.config.plugins 0).2.1 =
        some ("plugin cleanup error: " ++ ce) := by
      rw [hcfg, hplugins]
      simp [pluginCleanupPhase,
        hcleanup (strategyExecute fuel es cs m.strategy m).2.1.context]
    rw [hcp]

/-- A plugin whose `Cleanup` hook always fails with "cfail". -/
def cleanupFailPlugin : Plugin Unit Int :=
  { init := fun c => (c, none)
    execute := fun c => (c, none)
    cleanup := fun c => (c, some "cfail")
    modifyExecutionStrategy := none }

/-- One-plugin machine whose single step succeeds with DONE. -/
def mC3ok : Machine Unit Int :=
  NewMachine "M" [doneStep "S"]
    ctxU { log := false, logLevel := "", plugins := [quietPlugin] } .sequential

/-- Machine whose run succeeds but whose sole plugin's `Cleanup` fails. -/
def mC3cf : Machine Unit Int :=
  NewMachine "M" [doneStep "S"]
    ctxU { log := false, logLevel := "", plugins := [cleanupFailPlugin] } .sequential

/-- Witness for C3 (amended) on concrete machines: exactly one cleanup on a
successful one-plugin run, and the "plugin cleanup error" on a run whose
cleanup fails. -/
theorem cleanupRunsOnlyOnSuccess_witness :
    cleanupIdxs (runMachine 2 [] [] mC3ok).2.2 = List.range mC3ok.config.plugins.length ∧
    (runMachine 2 [] [] mC3cf).1 = .ret none (some ("plugin cleanup error: " ++ "cfail")) :=
  ⟨cleanupRunsOnlyOnSuccess.1 2 [] [] mC3ok (some (done "dn")) rfl,
   cleanupRunsOnlyOnSuccess.2 2 [] [] mC3cf cleanupFailPlugin "cfail" (some (done "dn"))
     rfl (by decide) (fun ctx => rfl) rfl (fun ctx => rfl) rfl⟩

end Tango
